import Mathlib

/-!
Verification of the lineage/checksum integrity subsystem of the
MirrorDNA-Standard repository (vault manager, checksum sync tool, lineage
visualizer, checksum validators).

Python strings are shallowly embedded as `List Char`; Python dictionaries
(which preserve insertion order) are embedded as association lists; Python
sets whose iteration order is irrelevant to the claims are embedded as
duplicate-free lists.  SHA-256 itself is an external primitive of the
`hashlib` library, so functions that hash content are parametrized over an
uninterpreted digest function; none of the verified claims depend on
properties of the digest.  Loops of the source that have no structural
termination argument (the lineage trace and the cycle-detection DFS) are
embedded with an explicit fuel argument; a result of `none` (or an
out-of-fuel error) models a run of the source that does not return.
-/

namespace MirrorDNA

/-! ## Generic list/string helpers -/

/-- Boolean prefix test on character lists (Python str.startswith). -/
def lPrefix : List Char → List Char → Bool
  | [], _ => true
  | _ :: _, [] => false
  | a :: as, b :: bs => a = b && lPrefix as bs

theorem lPrefix_append_self (p x : List Char) : lPrefix p (p ++ x) = true := by
  induction p with
  | nil => rfl
  | cons a as ih => simp [lPrefix, ih]

theorem lPrefix_eq_append {p s : List Char} (h : lPrefix p s = true) :
    s = p ++ s.drop p.length := by
  induction p generalizing s with
  | nil => simp
  | cons a as ih =>
    cases s with
    | nil => simp [lPrefix] at h
    | cons b bs =>
      simp only [lPrefix, Bool.and_eq_true, decide_eq_true_eq] at h
      obtain ⟨rfl, h2⟩ := h
      simpa using ih h2

/-- Splitting a character list at every occurrence of a separator
(Python str.split with a one-character separator). -/
def splitCh (sep : Char) : List Char → List (List Char)
  | [] => [[]]
  | c :: t =>
    match splitCh sep t with
    | [] => [[c]]
    | h :: hs => if c = sep then [] :: h :: hs else (c :: h) :: hs

/-- Joining with a separator (Python sep.join). -/
def joinCh (sep : Char) : List (List Char) → List Char
  | [] => []
  | [x] => x
  | x :: y :: t => x ++ sep :: joinCh sep (y :: t)

theorem splitCh_ne_nil (sep : Char) (s : List Char) : splitCh sep s ≠ [] := by
  cases s with
  | nil => simp [splitCh]
  | cons c t =>
    simp only [splitCh]
    cases h : splitCh sep t with
    | nil => simp
    | cons h hs =>
      by_cases hc : c = sep <;> simp [hc]

theorem joinCh_splitCh (sep : Char) (s : List Char) :
    joinCh sep (splitCh sep s) = s := by
  induction s with
  | nil => rfl
  | cons c t ih =>
    simp only [splitCh]
    cases h : splitCh sep t with
    | nil => exact absurd h (splitCh_ne_nil sep t)
    | cons x xs =>
      rw [h] at ih
      by_cases hc : c = sep
      · subst hc
        simp only [if_pos rfl, joinCh]
        cases xs <;> simpa [joinCh] using ih
      · simp only [if_neg hc]
        cases xs <;> simpa [joinCh] using ih

theorem splitCh_no_sep {sep : Char} {s : List Char} (h : sep ∉ s) :
    splitCh sep s = [s] := by
  induction s with
  | nil => rfl
  | cons c t ih =>
    simp only [List.mem_cons, not_or] at h
    have hcs : ¬ c = sep := fun hc => h.1 hc.symm
    simp only [splitCh, ih h.2, if_neg hcs]

theorem splitCh_append_head {sep : Char} {d : List Char} (b : List Char)
    (h : sep ∉ d) : splitCh sep (d ++ sep :: b) = d :: splitCh sep b := by
  induction d with
  | nil =>
    simp only [List.nil_append, splitCh]
    cases hb : splitCh sep b with
    | nil => exact absurd hb (splitCh_ne_nil sep b)
    | cons x xs => simp
  | cons c t ih =>
    simp only [List.mem_cons, not_or] at h
    have hcs : ¬ c = sep := fun hc => h.1 hc.symm
    have ih2 := ih h.2
    have e1 : splitCh sep ((c :: t) ++ sep :: b)
        = match splitCh sep (t ++ sep :: b) with
          | [] => [[c]]
          | h :: hs => if c = sep then [] :: h :: hs else (c :: h) :: hs := rfl
    rw [e1, ih2]
    simp [hcs]

theorem splitCh_append_last {sep : Char} {v : List Char} (r : List Char)
    (h : sep ∉ v) : splitCh sep (r ++ sep :: v) = splitCh sep r ++ [v] := by
  induction r with
  | nil => simp [splitCh, splitCh_no_sep h]
  | cons c t ih =>
    simp only [List.cons_append, splitCh, ih]
    cases ht : splitCh sep t with
    | nil => exact absurd ht (splitCh_ne_nil sep t)
    | cons x xs =>
      rw [ht] at ih
      by_cases hc : c = sep <;> simp [hc, ih]

/-- Last element of a list of strings, with the empty string as default
(total stand-in for Python parts[-1], which is only evaluated on
nonempty lists in the embedded code). -/
def myLast : List (List Char) → List Char
  | [] => []
  | [x] => x
  | _ :: y :: t => myLast (y :: t)

theorem myLast_concat (mid : List (List Char)) (x : List Char) :
    myLast (mid ++ [x]) = x := by
  induction mid with
  | nil => rfl
  | cons a t ih =>
    cases t with
    | nil => simp [myLast]
    | cons b u => simpa [myLast] using ih

theorem joinCh_cons_of_ne_nil (sep : Char) (d : List Char)
    {t : List (List Char)} (h : t ≠ []) :
    joinCh sep (d :: t) = d ++ sep :: joinCh sep t := by
  cases t with
  | nil => exact absurd rfl h
  | cons y u => rfl

theorem joinCh_concat (sep : Char) {mid : List (List Char)} (x : List Char)
    (h : mid ≠ []) :
    joinCh sep (mid ++ [x]) = joinCh sep mid ++ sep :: x := by
  induction mid with
  | nil => exact absurd rfl h
  | cons a t ih =>
    cases t with
    | nil => simp [joinCh]
    | cons b u =>
      have ih2 : joinCh sep ((b :: u) ++ [x])
          = joinCh sep (b :: u) ++ sep :: x := ih (by simp)
      have e1 : joinCh sep ((a :: b :: u) ++ [x])
          = a ++ sep :: joinCh sep ((b :: u) ++ [x]) := rfl
      have e2 : joinCh sep (a :: b :: u) = a ++ sep :: joinCh sep (b :: u) := rfl
      rw [e1, ih2, e2]
      simp

/-! ## Identifier registry: VaultID (src/tools/vault_manager.py)

VaultID.parse strips the fixed AMOS:// scheme, splits the remainder on
slashes and requires at least three segments; the first segment is the
domain, the last is the version, everything in between (joined back with
slashes) is the resource.  No validation of the version segment is
performed.  VaultID.__str__ re-assembles the three fields. -/

structure VaultID where
  domain : List Char
  resource : List Char
  version : List Char
  deriving DecidableEq, Repr

/-- The fixed scheme prefix AMOS:// as a character list. -/
def amosPfx : List Char := "AMOS://".toList

/-- Embedding of VaultID.__str__. -/
def vidStr (v : VaultID) : List Char :=
  amosPfx ++ v.domain ++ ('/' :: v.resource) ++ ('/' :: v.version)

/-- Embedding of VaultID.parse.  Errors carry the message of the
ValueError raised by the source. -/
def parseVaultID (s : List Char) : Except (List Char) VaultID :=
  if lPrefix amosPfx s = true then
    let parts := splitCh '/' (s.drop 7)
    if parts.length < 3 then
      .error ("VaultID must have domain/resource/version: ".toList ++ s)
    else
      match parts with
      | [] => .error ("VaultID must have domain/resource/version: ".toList ++ s)
      | d :: t => .ok ⟨d, joinCh '/' t.dropLast, myLast t⟩
  else
    .error ("Invalid VaultID format: ".toList ++ s)

/-- The dotted-numeric version pattern as the specification words it:
a letter v followed by one or more dot-separated non-negative integers.
This definition follows the wording of the spec (it has no counterpart in
the source, which never validates the version segment). -/
def isDottedNumeric (s : List Char) : Bool :=
  match s with
  | 'v' :: rest =>
    let gs := splitCh '.' rest
    decide (gs ≠ []) && gs.all (fun g => decide (g ≠ []) && g.all Char.isDigit)
  | _ => false

theorem amosPfx_length : amosPfx.length = 7 := rfl

/-- C6: format is a two-sided inverse of parse.  First conjunct: every
string accepted by parse is reproduced verbatim by formatting the parsed
value (this covers all valid identifier strings, which parse accepts).
Second conjunct: parsing the formatted form of any identifier value whose
domain and version contain no slash (true of all valid identifier values)
returns the value unchanged. -/
theorem C6_parse_format_roundtrip :
    (∀ (s : List Char) (v : VaultID), parseVaultID s = .ok v → vidStr v = s) ∧
    (∀ (d r ver : List Char), '/' ∉ d → '/' ∉ ver →
      parseVaultID (vidStr ⟨d, r, ver⟩) = .ok ⟨d, r, ver⟩) := by
  constructor
  · intro s v h
    unfold parseVaultID at h
    by_cases hp : lPrefix amosPfx s = true
    · rw [if_pos hp] at h
      by_cases hl : (splitCh '/' (s.drop 7)).length < 3
      · simp [hl] at h
      · rw [if_neg hl] at h
        cases hparts : splitCh '/' (s.drop 7) with
        | nil => exact absurd hparts (splitCh_ne_nil '/' (s.drop 7))
        | cons d t =>
          rw [hparts] at h hl
          simp only [Except.ok.injEq] at h
          subst h
          have ht2 : 2 ≤ t.length := by
            simp only [List.length_cons, not_lt] at hl
            omega
          have htne : t ≠ [] := by
            cases t
            · simp at ht2
            · simp
          have hmidne : t.dropLast ≠ [] := by
            cases t with
            | nil => simp at ht2
            | cons a u =>
              cases u with
              | nil => simp at ht2
              | cons b w => simp
          have hdecomp : t.dropLast ++ [t.getLast htne] = t :=
            List.dropLast_append_getLast htne
          have hlast : myLast t = t.getLast htne := by
            conv_lhs => rw [← hdecomp]
            exact myLast_concat _ _
          have hjoin : joinCh '/' (splitCh '/' (s.drop 7)) = s.drop 7 :=
            joinCh_splitCh '/' (s.drop 7)
          rw [hparts] at hjoin
          have hj2 : joinCh '/' (d :: t) = d ++ '/' :: joinCh '/' t :=
            joinCh_cons_of_ne_nil '/' d htne
          have hj3 : joinCh '/' t
              = joinCh '/' t.dropLast ++ '/' :: t.getLast htne := by
            conv_lhs => rw [← hdecomp]
            exact joinCh_concat '/' (t.getLast htne) hmidne
          have hs : s = amosPfx ++ s.drop 7 := by
            have := lPrefix_eq_append hp
            rwa [amosPfx_length] at this
          simp only [vidStr, hlast]
          rw [hs]
          rw [← hjoin, hj2, hj3]
          simp
    · simp [hp] at h
  · intro d r ver hd hv
    have hsplit : splitCh '/' (d ++ '/' :: (r ++ '/' :: ver))
        = d :: (splitCh '/' r ++ [ver]) := by
      rw [splitCh_append_head (r ++ '/' :: ver) hd, splitCh_append_last r hv]
    have hdrop : (vidStr ⟨d, r, ver⟩).drop 7 = d ++ '/' :: (r ++ '/' :: ver) := by
      show (amosPfx ++ (d ++ ('/' :: r) ++ ('/' :: ver))).drop 7 = _
      rw [← amosPfx_length, List.drop_left]
      simp
    have hpre : lPrefix amosPfx (vidStr ⟨d, r, ver⟩) = true := by
      show lPrefix amosPfx (amosPfx ++ _) = true
      exact lPrefix_append_self _ _
    have hrne : splitCh '/' r ≠ [] := splitCh_ne_nil '/' r
    unfold parseVaultID
    rw [if_pos hpre, hdrop, hsplit]
    have hlen : ¬ (d :: (splitCh '/' r ++ [ver])).length < 3 := by
      cases hsr : splitCh '/' r with
      | nil => exact absurd hsr hrne
      | cons x xs => simp
    rw [if_neg hlen]
    have h1 : joinCh '/' (splitCh '/' r ++ [ver]).dropLast = r := by
      rw [List.dropLast_concat, joinCh_splitCh]
    have h2 : myLast (splitCh '/' r ++ [ver]) = ver := myLast_concat _ _
    simp [h1, h2, joinCh_splitCh]

/-- Witness for C6 at the concrete identifier used throughout the
repository headers. -/
theorem C6_witness :
    vidStr ⟨"MirrorDNA-Standard".toList, "Tools/VaultManager".toList,
        "v1.0".toList⟩
      = "AMOS://MirrorDNA-Standard/Tools/VaultManager/v1.0".toList ∧
    parseVaultID ("AMOS://MirrorDNA-Standard/Tools/VaultManager/v1.0".toList)
      = .ok ⟨"MirrorDNA-Standard".toList, "Tools/VaultManager".toList,
          "v1.0".toList⟩ := by
  constructor
  · exact C6_parse_format_roundtrip.1
      ("AMOS://MirrorDNA-Standard/Tools/VaultManager/v1.0".toList) _ (by rfl)
  · exact C6_parse_format_roundtrip.2 "MirrorDNA-Standard".toList
      "Tools/VaultManager".toList "v1.0".toList (by decide) (by decide)

/-- C7 counterexample: the claim says a string with exactly two path
segments after the prefix parses (domain plus one resource segment, the
version being optional), and that a present version suffix failing the
dotted-numeric pattern is rejected.  The code does the opposite on both
counts: AMOS://a/b is rejected, and AMOS://a/b/xyz is accepted although
xyz fails the dotted-numeric pattern. -/
theorem C7_counterexample :
    parseVaultID ("AMOS://a/b".toList)
      = .error ("VaultID must have domain/resource/version: AMOS://a/b".toList) ∧
    parseVaultID ("AMOS://a/b/xyz".toList)
      = .ok ⟨['a'], ['b'], "xyz".toList⟩ ∧
    isDottedNumeric ("xyz".toList) = false := by
  refine ⟨by rfl, by rfl, by rfl⟩

/-- C7 amended: parsing fails exactly when the AMOS:// prefix is absent
or fewer than three slash-separated segments follow it (domain, at least
one resource segment, and a final segment stored as the version); the
version segment is never validated against the dotted-numeric pattern. -/
theorem C7_parse_failure_condition (s : List Char) :
    (∃ v, parseVaultID s = .ok v) ↔
    (lPrefix amosPfx s = true ∧ 3 ≤ (splitCh '/' (s.drop 7)).length) := by
  unfold parseVaultID
  by_cases hp : lPrefix amosPfx s = true
  · rw [if_pos hp]
    cases hparts : splitCh '/' (s.drop 7) with
    | nil => exact absurd hparts (splitCh_ne_nil '/' (s.drop 7))
    | cons d t =>
      by_cases hl : (d :: t).length < 3
      · rw [if_pos hl]
        simp only [hp, true_and]
        constructor
        · rintro ⟨v, hv⟩
          exact absurd hv (by simp)
        · intro h3
          exact absurd h3 (by omega)
      · rw [if_neg hl]
        simp only [hp, true_and]
        constructor
        · intro _
          omega
        · intro _
          exact ⟨_, rfl⟩
  · simp [hp]

/-! ## Checksum reconciler: ChecksumMismatch (src/tools/sync-checksums.py)

The drift record built by ChecksumSyncTool.verify_file carries three
optional checksum strings: the one extracted from the markdown
frontmatter, the one read from the sidecar JSON, and the freshly
calculated digest (None when the file could not be read/hashed).  The
source tests these with Python truthiness, under which the empty string
counts the same as None. -/

structure ChecksumMismatch where
  frontmatter_checksum : Option String
  sidecar_checksum : Option String
  calculated_checksum : Option String
  deriving DecidableEq, Repr

/-- Python truthiness of an Optional[str]: None and the empty string are
falsy, any other string is truthy. -/
def pyTruthy : Option String → Bool
  | none => false
  | some s => !s.isEmpty

/-- Embedding of ChecksumMismatch.has_drift: when both stored copies are
truthy, report whether they differ; otherwise report no drift. -/
def ChecksumMismatch.has_drift (m : ChecksumMismatch) : Bool :=
  if pyTruthy m.frontmatter_checksum && pyTruthy m.sidecar_checksum then
    decide (m.frontmatter_checksum ≠ m.sidecar_checksum)
  else
    false

/-- Embedding of ChecksumMismatch.is_correct: vacuously true when no
calculated digest is available (Python: if not self.calculated_checksum,
return True); otherwise every truthy stored copy must equal the
calculated digest (falsy copies are filtered out before the comparison). -/
def ChecksumMismatch.is_correct (m : ChecksumMismatch) : Bool :=
  if !pyTruthy m.calculated_checksum then
    true
  else
    let checksums := [m.frontmatter_checksum, m.sidecar_checksum]
    let present := checksums.filter pyTruthy
    present.all (fun c => decide (c = m.calculated_checksum))

theorem pyTruthy_some_true (s : String) : pyTruthy (some s) = true ↔ s ≠ "" := by
  unfold pyTruthy
  rcases h : s.isEmpty with _ | _
  · have hne : ¬ s = "" := fun he => by
      rw [he] at h
      exact absurd h (by decide)
    simp [hne, h]
  · have he : s = "" := (String.isEmpty_iff s).mp h
    subst he
    simp [h]

theorem pyTruthy_some_false (s : String) : pyTruthy (some s) = false ↔ s = "" := by
  simp [pyTruthy, String.isEmpty_iff]

theorem pyTruthy_false_iff (o : Option String) :
    pyTruthy o = false ↔ (o = none ∨ o = some "") := by
  cases o with
  | none => simp [pyTruthy]
  | some v => rw [pyTruthy_some_false]; simp

/-- Case form of has_drift as a propositional condition. -/
theorem has_drift_cases (f s c : Option String) :
    ChecksumMismatch.has_drift ⟨f, s, c⟩ = true ↔
      (pyTruthy f = true ∧ pyTruthy s = true ∧ f ≠ s) := by
  unfold ChecksumMismatch.has_drift
  by_cases hf : pyTruthy f <;> by_cases hs : pyTruthy s <;> simp [hf, hs]

/-- Case form of is_correct as a propositional condition. -/
theorem is_correct_cases (f s c : Option String) :
    ChecksumMismatch.is_correct ⟨f, s, c⟩ = true ↔
      (pyTruthy c = false ∨
        ((pyTruthy f = false ∨ f = c) ∧ (pyTruthy s = false ∨ s = c))) := by
  unfold ChecksumMismatch.is_correct
  by_cases hc : pyTruthy c
  · by_cases hf : pyTruthy f <;> by_cases hs : pyTruthy s <;>
      simp [hc, hf, hs, List.filter]
  · simp [hc]

/-- C5 counterexample: a record whose two stored copies are both present
(neither is None) and differ, yet has_drift is false, because the source
uses Python truthiness and one present copy is the empty string.  (An
empty embedded copy arises from a checksum_sha256: line whose value is
blank; an empty sidecar copy from a sidecar carrying "checksum_sha256":
"".) -/
theorem C5_counterexample :
    ChecksumMismatch.has_drift ⟨some "", some "a", none⟩ = false ∧
    (some "" : Option String) ≠ none ∧
    (some "a" : Option String) ≠ none ∧
    ("" : String) ≠ "a" := by
  refine ⟨rfl, by simp, by simp, by simp⟩

/-- C5 amended: presence must be read as Python truthiness (present and
non-empty).  has_drift is true iff both copies are present and non-empty
and differ; is_correct is true iff the calculated digest is absent or
empty, or every present non-empty copy equals it; an artifact with
exactly one present copy equal to the freshly calculated digest has no
drift and is correct. -/
theorem C5_drift_and_correct :
    (∀ m : ChecksumMismatch, m.has_drift = true ↔
      (∃ f s, m.frontmatter_checksum = some f ∧ m.sidecar_checksum = some s ∧
        f ≠ "" ∧ s ≠ "" ∧ f ≠ s)) ∧
    (∀ m : ChecksumMismatch, m.is_correct = true ↔
      (m.calculated_checksum = none ∨ m.calculated_checksum = some "" ∨
        (∀ c : String, c ≠ "" →
          (m.frontmatter_checksum = some c ∨ m.sidecar_checksum = some c) →
          m.calculated_checksum = some c))) ∧
    (∀ c : String, c ≠ "" →
      ChecksumMismatch.has_drift ⟨some c, none, some c⟩ = false ∧
      ChecksumMismatch.is_correct ⟨some c, none, some c⟩ = true ∧
      ChecksumMismatch.has_drift ⟨none, some c, some c⟩ = false ∧
      ChecksumMismatch.is_correct ⟨none, some c, some c⟩ = true) := by
  refine ⟨?_, ?_, ?_⟩
  · rintro ⟨f, s, c⟩
    rw [has_drift_cases]
    cases f with
    | none => simp [pyTruthy]
    | some fv =>
      cases s with
      | none => simp [pyTruthy]
      | some sv => simp [pyTruthy_some_true]
  · rintro ⟨f, s, c⟩
    rw [is_correct_cases, pyTruthy_false_iff]
    cases c with
    | none => simp
    | some cv =>
      by_cases hc : cv = ""
      · simp [hc]
      · have hcase : ((some cv = none ∨ (some cv : Option String) = some "")
            ↔ False) := by simp [hc]
        rw [hcase, false_or]
        have hR : ((some cv = none ∨ (some cv : Option String) = some "" ∨
            (∀ x : String, x ≠ "" → (f = some x ∨ s = some x) →
              (some cv : Option String) = some x)) ↔
            (∀ x : String, x ≠ "" → (f = some x ∨ s = some x) →
              (some cv : Option String) = some x)) := by
          constructor
          · rintro (h | h | h)
            · exact absurd h (by simp)
            · exact absurd h (by simp [hc])
            · exact h
          · exact fun h => Or.inr (Or.inr h)
        rw [hR]
        have hiff : ∀ o : Option String,
            (pyTruthy o = false ∨ o = some cv) ↔
            (∀ x : String, x ≠ "" → o = some x → (some cv : Option String) = some x) := by
          intro o
          cases o with
          | none => simp [pyTruthy]
          | some v =>
            by_cases hv : v = ""
            · subst hv
              constructor
              · rintro _ x hx hox
                exact absurd (Option.some.inj hox).symm hx
              · intro _
                exact Or.inl rfl
            · rw [pyTruthy_some_false]
              simp only [hv, false_or, Option.some.injEq]
              constructor
              · rintro rfl
                intro x _ hx
                exact hx
              · intro h
                exact (h v hv rfl).symm
        rw [hiff f, hiff s]
        constructor
        · rintro ⟨h1, h2⟩
          intro x hx hfs
          rcases hfs with hf | hs
          · exact h1 x hx hf
          · exact h2 x hx hs
        · intro h
          exact ⟨fun x hx hf => h x hx (Or.inl hf),
            fun x hx hs => h x hx (Or.inr hs)⟩
  · intro c hc
    refine ⟨?_, ?_, ?_, ?_⟩
    · simp [ChecksumMismatch.has_drift, pyTruthy]
    · rw [is_correct_cases]
      exact Or.inr ⟨Or.inr rfl, Or.inl rfl⟩
    · simp [ChecksumMismatch.has_drift, pyTruthy]
    · rw [is_correct_cases]
      exact Or.inr ⟨Or.inl rfl, Or.inr rfl⟩

/-- Witness for C5 at a concrete single-copy record. -/
theorem C5_witness :
    ChecksumMismatch.has_drift ⟨some "aa", none, some "aa"⟩ = false ∧
    ChecksumMismatch.is_correct ⟨some "aa", none, some "aa"⟩ = true := by
  have h := C5_drift_and_correct.2.2 "aa" (by simp)
  exact ⟨h.1, h.2.1⟩

/-- C10: whenever the fresh digest is unavailable (calculate_checksum
returned None, e.g. the file is unreadable), is_correct is true no
matter what the two stored copies contain — including the case where
both are present and wrong. -/
theorem C10_is_correct_of_no_calculated (f s : Option String) :
    ChecksumMismatch.is_correct ⟨f, s, none⟩ = true := rfl

/-! ## Association lists: ordered dictionaries

Python dictionaries preserve insertion order; assigning to an existing
key keeps its position, assigning to a fresh key appends.  These helpers
embed the dictionary operations the lineage code uses. -/

/-- Dictionary lookup. -/
def alGet {β : Type} : List (String × β) → String → Option β
  | [], _ => none
  | (k, v) :: t, x => if k = x then some v else alGet t x

/-- Dictionary assignment (update in place or append). -/
def alSet {β : Type} : List (String × β) → String → β → List (String × β)
  | [], k, v => [(k, v)]
  | (k', v') :: t, k, v => if k' = k then (k, v) :: t else (k', v') :: alSet t k v

/-- In-place mutation of the value stored under an existing key (no
effect when the key is absent). -/
def alUpd {β : Type} : List (String × β) → String → (β → β) → List (String × β)
  | [], _, _ => []
  | (k', v') :: t, k, f => if k' = k then (k', f v') :: t else (k', v') :: alUpd t k f

theorem alGet_alSet_self {β : Type} (g : List (String × β)) (k : String) (v : β) :
    alGet (alSet g k v) k = some v := by
  induction g with
  | nil => simp [alSet, alGet]
  | cons p t ih =>
    obtain ⟨k', v'⟩ := p
    by_cases h : k' = k
    · simp [alSet, h, alGet]
    · simp [alSet, h, alGet, ih]

theorem alGet_alSet_ne {β : Type} (g : List (String × β)) {k x : String}
    (v : β) (h : k ≠ x) : alGet (alSet g k v) x = alGet g x := by
  induction g with
  | nil => simp [alSet, alGet, h]
  | cons p t ih =>
    obtain ⟨k', v'⟩ := p
    by_cases hk : k' = k
    · subst hk
      simp [alSet, alGet, h, ih]
    · simp [alSet, hk, alGet, ih]

theorem alGet_alUpd_self {β : Type} (g : List (String × β)) (k : String)
    (f : β → β) : alGet (alUpd g k f) k = (alGet g k).map f := by
  induction g with
  | nil => simp [alUpd, alGet]
  | cons p t ih =>
    obtain ⟨k', v'⟩ := p
    by_cases h : k' = k
    · simp [alUpd, h, alGet]
    · simp [alUpd, h, alGet, ih]

theorem alGet_alUpd_ne {β : Type} (g : List (String × β)) {k x : String}
    (f : β → β) (h : k ≠ x) : alGet (alUpd g k f) x = alGet g x := by
  induction g with
  | nil => simp [alUpd]
  | cons p t ih =>
    obtain ⟨k', v'⟩ := p
    by_cases hk : k' = k
    · subst hk
      simp [alUpd, alGet, h, ih]
    · simp [alUpd, hk, alGet, ih]

theorem alGet_append_of_isSome {β : Type} {g : List (String × β)} {x : String}
    (h : (alGet g x).isSome) (l : List (String × β)) :
    alGet (g ++ l) x = alGet g x := by
  induction g with
  | nil => simp [alGet] at h
  | cons p t ih =>
    obtain ⟨k', v'⟩ := p
    by_cases hk : k' = x
    · simp [alGet, hk]
    · simp only [alGet, hk, if_false, List.cons_append, if_neg hk] at h ⊢
      exact ih h

/-! ## Lineage visualizer graph (src/tools/visualize-lineage.py)

LineageGraph holds an insertion-ordered dictionary of nodes, each with a
set of predecessor ids and a set of successor ids.  The only successor
sets with more than one element never appear in the verified claims, so
Python set iteration order does not matter; sets are embedded as
duplicate-free lists in insertion order. -/

structure LineageNode where
  predecessors : List String
  successors : List String
  deriving DecidableEq, Repr

/-- The visualizer graph: insertion-ordered map from node id to node. -/
abbrev VGraph : Type := List (String × LineageNode)

/-- Python set.add on the embedded sets. -/
def setAdd (l : List String) (x : String) : List String :=
  if x ∈ l then l else l ++ [x]

/-- Embedding of LineageGraph.add_node: create the node if absent. -/
def add_node (g : VGraph) (nodeId : String) : VGraph :=
  if (alGet g nodeId).isSome then g else g ++ [(nodeId, ⟨[], []⟩)]

/-- Embedding of LineageGraph.add_edge: create both endpoints, then
record the successor on the predecessor node and the predecessor on the
successor node. -/
def add_edge (g : VGraph) (predId succId : String) : VGraph :=
  let g1 := add_node g predId
  let g2 := add_node g1 succId
  let g3 := alUpd g2 predId (fun n => ⟨n.predecessors, setAdd n.successors succId⟩)
  alUpd g3 succId (fun n => ⟨setAdd n.predecessors predId, n.successors⟩)

/-- Embedding of LineageGraph.detect_broken_links: for every node, every
predecessor reference to an unregistered node yields (pred, node), and
every successor reference to an unregistered node yields (node, succ). -/
def detect_broken_links (g : VGraph) : List (String × String) :=
  g.foldl
    (fun acc p =>
      let acc1 := p.2.predecessors.foldl
        (fun a predId =>
          if (alGet g predId).isSome then a else a ++ [(predId, p.1)]) acc
      p.2.successors.foldl
        (fun a succId =>
          if (alGet g succId).isSome then a else a ++ [(p.1, succId)]) acc1)
    []

/-- The lineage-relevant content of a parsed sidecar file: the node key
(vault_id, or the file stem when vault_id is absent) and the two
reference lists. -/
structure Sidecar where
  node_id : String
  predecessors : List String
  successors : List String

/-- Embedding of LineageVisualizer.parse_sidecar restricted to its graph
effect: register the node, then add one edge per predecessor reference
and one per successor reference. -/
def parse_sidecar (g : VGraph) (sc : Sidecar) : VGraph :=
  sc.successors.foldl (fun g s => add_edge g sc.node_id s)
    (sc.predecessors.foldl (fun g p => add_edge g p sc.node_id)
      (add_node g sc.node_id))

/-- Graph built by scanning a list of sidecar files into one visualizer. -/
def build_graph (scs : List Sidecar) : VGraph :=
  scs.foldl parse_sidecar []

/-! ### Cycle detection

detect_cycles runs a DFS over successor edges from every unvisited node,
with a shared visited set and a shared recursion stack.  When a cycle is
found the DFS returns True through every level, skipping the
rec_stack.remove cleanup, so stale entries survive into later roots; a
successor found in the stale stack but not on the current path makes
path.index raise ValueError.  The embedding makes the possible exception
explicit and uses fuel for the recursion; fuel can never run out on the
instances proved below. -/

inductive CycleErr where
  | indexNotFound : CycleErr
  | fuelExhausted : CycleErr
  deriving DecidableEq, Repr

structure DfsState where
  visited : List String
  recStack : List String
  cycles : List (List String)
  deriving DecidableEq, Repr

/-- Python list.index as a partial operation. -/
def pyIndex : List String → String → Option Nat
  | [], _ => none
  | x :: t, s => if x = s then some 0 else (pyIndex t s).map (· + 1)

/-- Embedding of the inner dfs closure of detect_cycles.  The Bool in
the result is the early-return flag; note that a True return skips the
removal of the node from the recursion stack, as in the source. -/
def dfsE : Nat → VGraph → String → List String → DfsState →
    Except CycleErr (DfsState × Bool)
  | 0, _, _, _, _ => .error .fuelExhausted
  | fuel + 1, g, nodeId, path0, st0 =>
    let st1 : DfsState :=
      ⟨setAdd st0.visited nodeId, setAdd st0.recStack nodeId, st0.cycles⟩
    let path := path0 ++ [nodeId]
    let res :=
      match alGet g nodeId with
      | none => Except.ok (st1, false)
      | some node =>
        node.successors.foldl
          (fun (acc : Except CycleErr (DfsState × Bool)) (s : String) =>
            (match acc with
            | .error e => .error e
            | .ok (st, true) => .ok (st, true)
            | .ok (st, false) =>
              if s ∈ st.visited then
                if s ∈ st.recStack then
                  match pyIndex path s with
                  | none => .error .indexNotFound
                  | some i =>
                    .ok (⟨st.visited, st.recStack,
                      st.cycles ++ [path.drop i ++ [s]]⟩, true)
                else .ok (st, false)
              else dfsE fuel g s path st :
                Except CycleErr (DfsState × Bool)))
          (Except.ok (st1, false))
    match res with
    | .error e => .error e
    | .ok (st2, true) => .ok (st2, true)
    | .ok (st2, false) =>
      .ok (⟨st2.visited, st2.recStack.erase nodeId, st2.cycles⟩, false)

/-- One step of the outer loop of detect_cycles over the node order. -/
def cycleOuterStep (fuel : Nat) (g : VGraph)
    (acc : Except CycleErr DfsState) (p : String × LineageNode) :
    Except CycleErr DfsState :=
  match acc with
  | .error e => .error e
  | .ok st =>
    if p.1 ∈ st.visited then .ok st
    else
      match dfsE fuel g p.1 [] st with
      | .error e => .error e
      | .ok (st', _) => .ok st'

/-- Embedding of LineageGraph.detect_cycles.  The fuel bound
g.length + 2 covers every terminating run of the source (DFS nesting
visits pairwise distinct nodes, at most all graph keys plus one
out-of-graph successor). -/
def detect_cycles (g : VGraph) : Except CycleErr (List (List String)) :=
  match g.foldl (cycleOuterStep (g.length + 2) g) (.ok ⟨[], [], []⟩) with
  | .error e => .error e
  | .ok st => .ok st.cycles

/-- The failing graph for C4: successor edges A→B, B→A, C→A, nodes
registered in that order.  The first DFS finds the cycle [A, B, A] and
leaves A and B on the recursion stack; the DFS from C then sees its
successor A in the stale stack, and path.index(A) on the path [C]
raises ValueError. -/
def gC4 : VGraph :=
  add_edge (add_edge (add_edge [] "A" "B") "B" "A") "C" "A"

/-- C4: the pure query detect_cycles raises an unhandled ValueError on
the graph with successor edges A→B, B→A, C→A, contradicting the claim
that the query operations always return normally for inconsistent data.
The conjuncts record that the failing input really has those three
successor edges. -/
theorem C4_detect_cycles_raises :
    detect_cycles gC4 = .error .indexNotFound ∧
    (alGet gC4 "A").map LineageNode.successors = some ["B"] ∧
    (alGet gC4 "B").map LineageNode.successors = some ["A"] ∧
    (alGet gC4 "C").map LineageNode.successors = some ["A"] := by
  refine ⟨?_, ?_, ?_, ?_⟩ <;> rfl

/-- The counterexample graph for C2: successor edges P→Q, Q→P, R→P. -/
def gC2 : VGraph :=
  add_edge (add_edge (add_edge [] "P" "Q") "Q" "P") "R" "P"

/-- C2 counterexample: the graph with successor edges P→Q, Q→P, R→P
contains the distinct cycle P→Q→P, but detect_cycles does not report it
(or anything else) exactly once: it raises ValueError via the stale
recursion stack, so the claim that each distinct cycle is reported once
fails. -/
theorem C2_counterexample :
    detect_cycles gC2 = .error .indexNotFound ∧
    (alGet gC2 "P").map LineageNode.successors = some ["Q"] ∧
    (alGet gC2 "Q").map LineageNode.successors = some ["P"] ∧
    (alGet gC2 "R").map LineageNode.successors = some ["P"] := by
  refine ⟨?_, ?_, ?_, ?_⟩ <;> rfl

/-! ### Broken links are unreachable through add_edge

add_edge registers both of its endpoints via add_node before recording
the references, so every id held in any predecessor or successor set of
a graph built through add_node/add_edge (which is how parse_sidecar and
scan_directory build graphs) is itself a key of the node dictionary. -/

/-- Every reference stored in the graph resolves to a registered node. -/
def refsClosed (g : VGraph) : Prop :=
  ∀ p ∈ g, ∀ x : String,
    (x ∈ p.2.predecessors ∨ x ∈ p.2.successors) → (alGet g x).isSome = true

theorem alGet_append_of_none {β : Type} {g : List (String × β)} {x : String}
    (h : alGet g x = none) (l : List (String × β)) :
    alGet (g ++ l) x = alGet l x := by
  induction g with
  | nil => simp
  | cons p t ih =>
    obtain ⟨k', v'⟩ := p
    by_cases hk : k' = x
    · simp [alGet, hk] at h
    · simp only [alGet, hk, if_false, if_neg hk, List.cons_append] at h ⊢
      exact ih h

theorem alGet_isSome_append {β : Type} {g : List (String × β)} {x : String}
    (h : (alGet g x).isSome = true) (l : List (String × β)) :
    (alGet (g ++ l) x).isSome = true := by
  rw [alGet_append_of_isSome h l]
  exact h

theorem alGet_isSome_add_node {g : VGraph} {x : String}
    (h : (alGet g x).isSome = true) (n : String) :
    (alGet (add_node g n) x).isSome = true := by
  unfold add_node
  by_cases hn : (alGet g n).isSome = true
  · rw [if_pos hn]
    exact h
  · rw [if_neg hn]
    exact alGet_isSome_append h _

theorem alGet_add_node_self (g : VGraph) (n : String) :
    (alGet (add_node g n) n).isSome = true := by
  unfold add_node
  cases he : alGet g n with
  | some v => simp [he]
  | none =>
    rw [if_neg (by simp [he]), alGet_append_of_none he]
    simp [alGet]

theorem alGet_isSome_alUpd {β : Type} (g : List (String × β)) (k x : String)
    (f : β → β) : (alGet (alUpd g k f) x).isSome = (alGet g x).isSome := by
  by_cases hk : k = x
  · subst hk
    rw [alGet_alUpd_self]
    cases alGet g k <;> simp
  · rw [alGet_alUpd_ne _ _ hk]

theorem mem_alUpd {β : Type} {g : List (String × β)} {k : String} {f : β → β}
    {p : String × β} (h : p ∈ alUpd g k f) :
    p ∈ g ∨ ∃ v, (k, v) ∈ g ∧ p = (k, f v) := by
  induction g with
  | nil => simp [alUpd] at h
  | cons q t ih =>
    obtain ⟨k', v'⟩ := q
    by_cases hk : k' = k
    · subst hk
      simp only [alUpd, if_true, eq_self_iff_true, List.mem_cons, ite_true] at h
      rcases h with h | h
      · exact Or.inr ⟨v', by simp, h⟩
      · exact Or.inl (List.mem_cons_of_mem _ h)
    · simp only [alUpd, if_neg hk, List.mem_cons] at h
      rcases h with h | h
      · exact Or.inl (by simp [h])
      · rcases ih h with h2 | ⟨v, hv, hp⟩
        · exact Or.inl (List.mem_cons_of_mem _ h2)
        · exact Or.inr ⟨v, List.mem_cons_of_mem _ hv, hp⟩

theorem mem_add_node {g : VGraph} {n : String} {p : String × LineageNode}
    (h : p ∈ add_node g n) : p ∈ g ∨ p = (n, ⟨[], []⟩) := by
  unfold add_node at h
  by_cases hn : (alGet g n).isSome = true
  · rw [if_pos hn] at h
    exact Or.inl h
  · rw [if_neg hn] at h
    simpa using h

theorem mem_setAdd {l : List String} {x y : String} (h : y ∈ setAdd l x) :
    y ∈ l ∨ y = x := by
  unfold setAdd at h
  by_cases hx : x ∈ l
  · rw [if_pos hx] at h
    exact Or.inl h
  · rw [if_neg hx] at h
    simpa using h

theorem refsClosed_add_node {g : VGraph} (h : refsClosed g) (n : String) :
    refsClosed (add_node g n) := by
  intro p hp x hx
  rcases mem_add_node hp with hp | hp
  · exact alGet_isSome_add_node (h p hp x hx) n
  · subst hp
    simp at hx

theorem refsClosed_add_edge {g : VGraph} (h : refsClosed g) (a b : String) :
    refsClosed (add_edge g a b) := by
  unfold add_edge
  set g2 := add_node (add_node g a) b with hg2
  have hc2 : refsClosed g2 := refsClosed_add_node (refsClosed_add_node h a) b
  have ha2 : (alGet g2 a).isSome = true :=
    alGet_isSome_add_node (alGet_add_node_self g a) b
  have hb2 : (alGet g2 b).isSome = true := alGet_add_node_self (add_node g a) b
  set g3 := alUpd g2 a (fun n => ⟨n.predecessors, setAdd n.successors b⟩) with hg3
  have htr3 : ∀ x : String, (alGet g2 x).isSome = true →
      (alGet g3 x).isSome = true := by
    intro x hx
    rw [hg3, alGet_isSome_alUpd]
    exact hx
  have hc3 : refsClosed g3 := by
    intro p hp x hx
    rcases mem_alUpd hp with hp | ⟨v, hv, hp⟩
    · exact htr3 x (hc2 p hp x hx)
    · subst hp
      simp only at hx
      rcases hx with hx | hx
      · exact htr3 x (hc2 (a, v) hv x (Or.inl hx))
      · rcases mem_setAdd hx with hx | hx
        · exact htr3 x (hc2 (a, v) hv x (Or.inr hx))
        · subst hx
          exact htr3 x hb2
  have htr4 : ∀ x : String, (alGet g3 x).isSome = true →
      (alGet (alUpd g3 b (fun n => ⟨setAdd n.predecessors a, n.successors⟩))
        x).isSome = true := by
    intro x hx
    rw [alGet_isSome_alUpd]
    exact hx
  intro p hp x hx
  rcases mem_alUpd hp with hp | ⟨v, hv, hp⟩
  · exact htr4 x (hc3 p hp x hx)
  · subst hp
    simp only at hx
    rcases hx with hx | hx
    · rcases mem_setAdd hx with hx | hx
      · exact htr4 x (hc3 (b, v) hv x (Or.inl hx))
      · subst hx
        exact htr4 x (htr3 x ha2)
    · exact htr4 x (hc3 (b, v) hv x (Or.inr hx))

theorem foldl_preserve {α : Type} {P : VGraph → Prop} {f : VGraph → α → VGraph}
    (hf : ∀ g a, P g → P (f g a)) :
    ∀ (l : List α) (g : VGraph), P g → P (l.foldl f g) := by
  intro l
  induction l with
  | nil => intro g hg; exact hg
  | cons a t ih => intro g hg; exact ih (f g a) (hf g a hg)

theorem refsClosed_parse_sidecar {g : VGraph} (h : refsClosed g)
    (sc : Sidecar) : refsClosed (parse_sidecar g sc) := by
  unfold parse_sidecar
  exact @foldl_preserve String refsClosed (fun g s => add_edge g sc.node_id s)
    (fun g s hg => refsClosed_add_edge hg sc.node_id s) sc.successors
    (sc.predecessors.foldl (fun g p => add_edge g p sc.node_id)
      (add_node g sc.node_id))
    (@foldl_preserve String refsClosed (fun g p => add_edge g p sc.node_id)
      (fun g p hg => refsClosed_add_edge hg p sc.node_id) sc.predecessors
      (add_node g sc.node_id) (refsClosed_add_node h sc.node_id))

theorem refsClosed_build_graph (scs : List Sidecar) :
    refsClosed (build_graph scs) := by
  unfold build_graph
  exact @foldl_preserve Sidecar refsClosed parse_sidecar
    (fun g sc hg => refsClosed_parse_sidecar hg sc) scs []
    (fun p hp => absurd hp (List.not_mem_nil p))

theorem detect_broken_links_inner_pred (g : VGraph) (n : String) :
    ∀ (xs : List String) (acc : List (String × String)),
      (∀ x ∈ xs, (alGet g x).isSome = true) →
      xs.foldl (fun a predId =>
        if (alGet g predId).isSome then a else a ++ [(predId, n)]) acc = acc := by
  intro xs
  induction xs with
  | nil => intro acc _; rfl
  | cons x t ih =>
    intro acc h
    have hx : (alGet g x).isSome = true := h x (by simp)
    simp only [List.foldl_cons, if_pos hx]
    exact ih acc (fun y hy => h y (by simp [hy]))

theorem detect_broken_links_inner_succ (g : VGraph) (n : String) :
    ∀ (xs : List String) (acc : List (String × String)),
      (∀ x ∈ xs, (alGet g x).isSome = true) →
      xs.foldl (fun a succId =>
        if (alGet g succId).isSome then a else a ++ [(n, succId)]) acc = acc := by
  intro xs
  induction xs with
  | nil => intro acc _; rfl
  | cons x t ih =>
    intro acc h
    have hx : (alGet g x).isSome = true := h x (by simp)
    simp only [List.foldl_cons, if_pos hx]
    exact ih acc (fun y hy => h y (by simp [hy]))

theorem detect_broken_links_of_refsClosed {g : VGraph} (h : refsClosed g) :
    detect_broken_links g = [] := by
  unfold detect_broken_links
  suffices hgen : ∀ (l : List (String × LineageNode)),
      (∀ p ∈ l, ∀ x : String,
        (x ∈ p.2.predecessors ∨ x ∈ p.2.successors) →
        (alGet g x).isSome = true) →
      ∀ acc, l.foldl
        (fun acc p =>
          p.2.successors.foldl
            (fun a succId =>
              if (alGet g succId).isSome then a else a ++ [(p.1, succId)])
            (p.2.predecessors.foldl
              (fun a predId =>
                if (alGet g predId).isSome then a else a ++ [(predId, p.1)]) acc))
        acc = acc by
    exact hgen g h []
  intro l
  induction l with
  | nil => intro _ acc; rfl
  | cons p t ih =>
    intro hl acc
    simp only [List.foldl_cons]
    have hp := hl p (by simp)
    rw [detect_broken_links_inner_pred g p.1 p.2.predecessors acc
      (fun x hx => hp x (Or.inl hx))]
    rw [detect_broken_links_inner_succ g p.1 p.2.successors acc
      (fun x hx => hp x (Or.inr hx))]
    exact ih (fun q hq => hl q (by simp [hq])) acc

/-- C3: for every graph built by scanning sidecar files,
detect_broken_links returns the empty list — add_edge registers both
endpoints, so a dangling reference can never exist, and the concrete
scenario of the claim (a sidecar for node N naming a never-scanned
predecessor Z) yields [] rather than [(Z, N)]: Z has silently become a
registered node. -/
theorem C3_broken_links_never_detected :
    (∀ scs : List Sidecar, detect_broken_links (build_graph scs) = []) ∧
    detect_broken_links (build_graph [⟨"N", ["Z"], []⟩]) = [] ∧
    (alGet (build_graph [⟨"N", ["Z"], []⟩]) "Z").isSome = true := by
  refine ⟨fun scs => detect_broken_links_of_refsClosed (refsClosed_build_graph scs),
    ?_, ?_⟩ <;> rfl

/-! ### The three-node cycle is reported correctly

For a graph whose successor edges form exactly the single cycle A→B→C→A
the DFS finds the cycle at once from whichever node the dictionary order
presents first, so detect_cycles returns exactly one rotation of the
cycle, closed at its start. -/

/-- The successor function of the three-cycle a→b→c→a. -/
def cyc3 (a b c x : String) : String :=
  if x = a then b else if x = b then c else a

theorem alGet_map_mem {l : List String} {x : String} (h : x ∈ l)
    (f : String → LineageNode) :
    alGet (l.map fun y => (y, f y)) x = some (f x) := by
  induction l with
  | nil => simp at h
  | cons k t ih =>
    rcases List.mem_cons.mp h with rfl | hx
    · simp [alGet]
    · by_cases hk : k = x
      · subst hk
        simp [alGet]
      · simp [alGet, hk, ih hx]

theorem dfsCycle3 (g : VGraph) (x y z : String) (nx ny nz : LineageNode)
    (hxy : x ≠ y) (hyz : y ≠ z) (hxz : x ≠ z)
    (hgx : alGet g x = some nx) (hsx : nx.successors = [y])
    (hgy : alGet g y = some ny) (hsy : ny.successors = [z])
    (hgz : alGet g z = some nz) (hsz : nz.successors = [x]) (n : Nat) :
    dfsE (n + 1 + 1 + 1) g x [] ⟨[], [], []⟩
      = .ok (⟨[x, y, z], [x, y, z], [[x, y, z, x]]⟩, true) := by
  have hyx : y ≠ x := hxy.symm
  have hzy : z ≠ y := hyz.symm
  have hzx : z ≠ x := hxz.symm
  simp [dfsE, hgx, hsx, hgy, hsy, hgz, hsz, setAdd, pyIndex,
    hxy, hyz, hxz, hyx, hzy, hzx]

theorem cycleOuter_skip (fuel : Nat) (g : VGraph) :
    ∀ (rest : List (String × LineageNode)) (st : DfsState),
      (∀ p ∈ rest, p.1 ∈ st.visited) →
      rest.foldl (cycleOuterStep fuel g) (.ok st) = .ok st := by
  intro rest
  induction rest with
  | nil => intro st _; rfl
  | cons p t ih =>
    intro st h
    have hp : p.1 ∈ st.visited := h p (by simp)
    simp only [List.foldl_cons, cycleOuterStep, if_pos hp]
    exact ih st (fun q hq => h q (by simp [hq]))

/-- C2 amended: for every graph whose successor edges form exactly the
cycle a→b→c→a (any insertion order of the three nodes, any predecessor
sets), detect_cycles returns exactly one cycle, a rotation of the three
nodes closed back to its start.  The further clause of the original
claim — that in general every distinct cycle is reported once — is
dropped, as the counterexample shows. -/
theorem C2_cycle_graph_single_rotation (a b c : String)
    (ps : String → List String) (l : List String)
    (hab : a ≠ b) (hbc : b ≠ c) (hac : a ≠ c) (hperm : l.Perm [a, b, c]) :
    detect_cycles (l.map fun w => (w, ⟨ps w, [cyc3 a b c w]⟩)) ∈
      ([.ok [[a, b, c, a]], .ok [[b, c, a, b]], .ok [[c, a, b, c]]] :
        List (Except CycleErr (List (List String)))) := by
  have hba : b ≠ a := hab.symm
  have hcb : c ≠ b := hbc.symm
  have hca : c ≠ a := hac.symm
  have hlen3 : l.length = 3 := by simpa using hperm.length_eq
  have hmeml : ∀ w, w ∈ l ↔ w ∈ [a, b, c] := fun w => hperm.mem_iff
  have hga : alGet (l.map fun w =>
        (w, LineageNode.mk (ps w) [cyc3 a b c w])) a
      = some (LineageNode.mk (ps a) [cyc3 a b c a]) :=
    alGet_map_mem ((hmeml a).mpr (by simp)) _
  have hgb : alGet (l.map fun w =>
        (w, LineageNode.mk (ps w) [cyc3 a b c w])) b
      = some (LineageNode.mk (ps b) [cyc3 a b c b]) :=
    alGet_map_mem ((hmeml b).mpr (by simp)) _
  have hgc : alGet (l.map fun w =>
        (w, LineageNode.mk (ps w) [cyc3 a b c w])) c
      = some (LineageNode.mk (ps c) [cyc3 a b c c]) :=
    alGet_map_mem ((hmeml c).mpr (by simp)) _
  have hsa : cyc3 a b c a = b := by simp [cyc3]
  have hsb : cyc3 a b c b = c := by simp [cyc3, hba]
  have hsc : cyc3 a b c c = a := by simp [cyc3, hca, hcb]
  cases l with
  | nil => simp at hlen3
  | cons h t =>
    have hh : h ∈ [a, b, c] := (hmeml h).mp (by simp)
    have htsub : ∀ w ∈ t, w ∈ [a, b, c] :=
      fun w hw => (hmeml w).mp (by simp [hw])
    have ht2 : t.length = 2 := by simpa using hlen3
    have hfuel : ((h :: t).map
        (fun w => ((w, ⟨ps w, [cyc3 a b c w]⟩) : String × LineageNode))).length + 2
        = 2 + 1 + 1 + 1 := by
      simp [List.length_map, ht2]
    unfold detect_cycles
    rw [hfuel]
    rw [List.map_cons, List.foldl_cons]
    simp only [List.mem_cons, List.not_mem_nil, or_false] at hh
    rcases hh with hh1 | hh1 | hh1
    · -- first node in dictionary order is a
      rw [hh1] at hga hgb hgc ⊢
      have hd := dfsCycle3 _ a b c _ _ _ hab hbc hac
        hga (by simp [hsa]) hgb (by simp [hsb]) hgc (by simp [hsc]) 2
      rw [List.map_cons] at hd
      have hstep : cycleOuterStep (2 + 1 + 1 + 1)
          ((a, LineageNode.mk (ps a) [cyc3 a b c a]) ::
            t.map fun w => (w, LineageNode.mk (ps w) [cyc3 a b c w]))
          (.ok ⟨[], [], []⟩) (a, LineageNode.mk (ps a) [cyc3 a b c a])
          = .ok ⟨[a, b, c], [a, b, c], [[a, b, c, a]]⟩ := by
        simp [cycleOuterStep, hd]
      rw [hstep]
      rw [cycleOuter_skip _ _ _ _ (by
        intro p hp
        simp only [List.mem_map] at hp
        obtain ⟨w, hw, rfl⟩ := hp
        simpa using htsub w hw)]
      simp
    · -- first node in dictionary order is b
      rw [hh1] at hga hgb hgc ⊢
      have hd := dfsCycle3 _ b c a _ _ _ hbc hca hba
        hgb (by simp [hsb]) hgc (by simp [hsc]) hga (by simp [hsa]) 2
      rw [List.map_cons] at hd
      have hstep : cycleOuterStep (2 + 1 + 1 + 1)
          ((b, LineageNode.mk (ps b) [cyc3 a b c b]) ::
            t.map fun w => (w, LineageNode.mk (ps w) [cyc3 a b c w]))
          (.ok ⟨[], [], []⟩) (b, LineageNode.mk (ps b) [cyc3 a b c b])
          = .ok ⟨[b, c, a], [b, c, a], [[b, c, a, b]]⟩ := by
        simp [cycleOuterStep, hd]
      rw [hstep]
      rw [cycleOuter_skip _ _ _ _ (by
        intro p hp
        simp only [List.mem_map] at hp
        obtain ⟨w, hw, rfl⟩ := hp
        have := htsub w hw
        simp only [List.mem_cons, List.not_mem_nil, or_false] at this
        rcases this with rfl | rfl | rfl <;> simp)]
      simp
    · -- first node in dictionary order is c
      rw [hh1] at hga hgb hgc ⊢
      have hd := dfsCycle3 _ c a b _ _ _ hca hab hcb
        hgc (by simp [hsc]) hga (by simp [hsa]) hgb (by simp [hsb]) 2
      rw [List.map_cons] at hd
      have hstep : cycleOuterStep (2 + 1 + 1 + 1)
          ((c, LineageNode.mk (ps c) [cyc3 a b c c]) ::
            t.map fun w => (w, LineageNode.mk (ps w) [cyc3 a b c w]))
          (.ok ⟨[], [], []⟩) (c, LineageNode.mk (ps c) [cyc3 a b c c])
          = .ok ⟨[c, a, b], [c, a, b], [[c, a, b, c]]⟩ := by
        simp [cycleOuterStep, hd]
      rw [hstep]
      rw [cycleOuter_skip _ _ _ _ (by
        intro p hp
        simp only [List.mem_map] at hp
        obtain ⟨w, hw, rfl⟩ := hp
        have := htsub w hw
        simp only [List.mem_cons, List.not_mem_nil, or_false] at this
        rcases this with rfl | rfl | rfl <;> simp)]
      simp

/-- Witness for C2 at concrete node names and a concrete insertion
order. -/
theorem C2_witness :
    detect_cycles ([⟨"A", ⟨[], ["B"]⟩⟩, ⟨"B", ⟨["A"], ["C"]⟩⟩,
        ⟨"C", ⟨["B"], ["A"]⟩⟩] : VGraph) ∈
      ([.ok [["A", "B", "C", "A"]], .ok [["B", "C", "A", "B"]],
        .ok [["C", "A", "B", "C"]]] :
        List (Except CycleErr (List (List String)))) := by
  have h := C2_cycle_graph_single_rotation "A" "B" "C"
    (fun w => if w = "A" then [] else if w = "B" then ["A"] else ["B"])
    ["A", "B", "C"] (by decide) (by decide) (by decide) (List.Perm.refl _)
  simpa using h

/-! ## Vault manager (src/tools/vault_manager.py)

VaultManager keeps an insertion-ordered manifest (artifacts and
checksums) and a lineage graph of LineageChain records, and persists
both to disk files after every mutation.  The checksum of an artifact is
SHA-256 over canonicalized text; canonicalization and hashing are
external primitives (unicodedata, hashlib), so the embedding abstracts
the composite as an uninterpreted function compute_checksum; no claim
depends on digest values.  register_artifact is the only operation of
the class that mutates the manifest, the lineage graph or the disk; the
query operations (verify, trace, validate, report) are read-only and are
embedded as pure functions of the state. -/

structure LineageChain where
  vault_id : String
  predecessor : Option String
  successor : Option String
  branch_point : Option String
  merge_point : Option String
  deriving DecidableEq, Repr

structure ArtifactEntry where
  file_path : String
  registered_at : String
  metadata : List (String × String)
  deriving DecidableEq, Repr

structure VaultManager where
  artifacts : List (String × ArtifactEntry)
  checksums : List (String × String)
  lineage_graph : List (String × LineageChain)
  deriving DecidableEq, Repr

/-- The two persistence files of a vault directory (None = absent). -/
structure VaultDisk where
  manifest : Option (List (String × ArtifactEntry) × List (String × String))
  lineage : Option (List (String × LineageChain))
  deriving DecidableEq, Repr

theorem isEmpty_false_of_ne {s : String} (h : s ≠ "") : s.isEmpty = false := by
  rcases hh : s.isEmpty with _ | _
  · rfl
  · exact absurd ((String.isEmpty_iff s).mp hh) h

/-- Embedding of VaultManager.register_artifact.  compute_checksum is
the canonicalized SHA-256 primitive; files maps a path to its text
content (None = unreadable, in which case the source raises and nothing
is mutated); now stands for datetime.utcnow().isoformat().  On success
the updated in-memory state, the rewritten disk files and the returned
checksum are produced; both files are persisted before returning.  Note
the Python truthiness test on predecessor: an empty-string predecessor
never receives a successor update. -/
def register_artifact (compute_checksum : String → String)
    (files : String → Option String) (now : String)
    (vm : VaultManager) (vault_id : String) (file_path : String)
    (predecessor : Option String) (metadata : List (String × String)) :
    Option (VaultManager × VaultDisk × String) :=
  match files file_path with
  | none => none
  | some content =>
    let checksum := compute_checksum content
    let artifacts := alSet vm.artifacts vault_id ⟨file_path, now, metadata⟩
    let checksums := alSet vm.checksums vault_id checksum
    let lineage1 := alSet vm.lineage_graph vault_id
      ⟨vault_id, predecessor, none, none, none⟩
    let lineage2 :=
      match predecessor with
      | none => lineage1
      | some p =>
        if !p.isEmpty && (alGet lineage1 p).isSome then
          alUpd lineage1 p (fun ch => { ch with successor := some vault_id })
        else lineage1
    some (⟨artifacts, checksums, lineage2⟩,
      ⟨some (artifacts, checksums), some lineage2⟩, checksum)

/-- The while loop of VaultManager.trace_lineage: backward follows
predecessor links, forward follows successor links; a link to a node
missing from the graph is appended and then the trace stops.  None
models a run of the source that does not return (the loop has no cycle
guard) or the unreachable dictionary miss. -/
def traceAux (backward : Bool) :
    Nat → List (String × LineageChain) → String → List String →
    Option (List String)
  | 0, _, _, _ => none
  | fuel + 1, g, current, chain =>
    match alGet g current with
    | none => none
    | some lineage =>
      match (if backward then lineage.predecessor else lineage.successor) with
      | none => some chain
      | some nxt =>
        if (alGet g nxt).isSome then traceAux backward fuel g nxt (chain ++ [nxt])
        else some (chain ++ [nxt])

/-- Embedding of VaultManager.trace_lineage.  A terminating run of the
source visits pairwise distinct nodes of the graph, so fuel
g.length + 1 suffices for every run that returns. -/
def trace_lineage (g : List (String × LineageChain)) (vault_id : String)
    (backward : Bool) : Option (List String) :=
  if (alGet g vault_id).isSome then
    traceAux backward (g.length + 1) g vault_id [vault_id]
  else
    some []

theorem length_alUpd {β : Type} (g : List (String × β)) (k : String)
    (f : β → β) : (alUpd g k f).length = g.length := by
  induction g with
  | nil => rfl
  | cons p t ih =>
    obtain ⟨k2, v2⟩ := p
    by_cases hk : k2 = k <;> simp [alUpd, hk, ih]

theorem length_alSet_pos {β : Type} (g : List (String × β)) (k : String)
    (v : β) : 0 < (alSet g k v).length := by
  cases g with
  | nil => simp [alSet]
  | cons p t =>
    obtain ⟨k2, v2⟩ := p
    by_cases hk : k2 = k <;> simp [alSet, hk]

/-- C1: from any vault state, register(A, fileA) followed by
register(B, fileB, predecessor=A) for distinct artifacts (A nonempty, as
every AMOS:// identifier is) yields a state in which the backward trace
from B returns exactly [B, A], the lineage entry of A carries successor
B, and the disk files written by the second register equal the final
in-memory manifest and lineage (persisted before returning).  The other
operations of the class are embedded as pure read-only functions, so
register is the sole mutator of graph topology. -/
theorem C1_register_trace (compute_checksum : String → String)
    (files : String → Option String) (nowA nowB : String)
    (vm : VaultManager) (A B fileA fileB : String)
    (metaA metaB : List (String × String)) (cA cB : String)
    (hAB : A ≠ B) (hA : A ≠ "")
    (hfA : files fileA = some cA) (hfB : files fileB = some cB) :
    ∃ (vm1 vm2 : VaultManager) (d1 d2 : VaultDisk) (ck1 ck2 : String),
      register_artifact compute_checksum files nowA vm A fileA none metaA
        = some (vm1, d1, ck1) ∧
      register_artifact compute_checksum files nowB vm1 B fileB (some A) metaB
        = some (vm2, d2, ck2) ∧
      trace_lineage vm2.lineage_graph B true = some [B, A] ∧
      (alGet vm2.lineage_graph A).map LineageChain.successor = some (some B) ∧
      d2.manifest = some (vm2.artifacts, vm2.checksums) ∧
      d2.lineage = some vm2.lineage_graph := by
  have hBA : B ≠ A := hAB.symm
  have hAe : A.isEmpty = false := isEmpty_false_of_ne hA
  have hgetA1 : alGet (alSet (alSet vm.lineage_graph A ⟨A, none, none, none, none⟩)
        B ⟨B, some A, none, none, none⟩) A
      = some ⟨A, none, none, none, none⟩ := by
    rw [alGet_alSet_ne _ _ hBA, alGet_alSet_self]
  have hcond : (!A.isEmpty &&
      (alGet (alSet (alSet vm.lineage_graph A ⟨A, none, none, none, none⟩)
        B ⟨B, some A, none, none, none⟩) A).isSome) = true := by
    rw [hgetA1, hAe]
    rfl
  have hgetA2 : alGet (alUpd (alSet (alSet vm.lineage_graph A
          ⟨A, none, none, none, none⟩) B ⟨B, some A, none, none, none⟩) A
        (fun ch => { ch with successor := some B })) A
      = some ⟨A, none, some B, none, none⟩ := by
    rw [alGet_alUpd_self, hgetA1]
    rfl
  have hgetB2 : alGet (alUpd (alSet (alSet vm.lineage_graph A
          ⟨A, none, none, none, none⟩) B ⟨B, some A, none, none, none⟩) A
        (fun ch => { ch with successor := some B })) B
      = some ⟨B, some A, none, none, none⟩ := by
    rw [alGet_alUpd_ne _ _ hAB, alGet_alSet_self]
  have hlen : ∃ m, (alUpd (alSet (alSet vm.lineage_graph A
          ⟨A, none, none, none, none⟩) B ⟨B, some A, none, none, none⟩) A
        (fun ch => { ch with successor := some B })).length = m + 1 := by
    rw [length_alUpd]
    have h1 := length_alSet_pos (alSet vm.lineage_graph A
      ⟨A, none, none, none, none⟩) B (⟨B, some A, none, none, none⟩ : LineageChain)
    refine ⟨(alSet (alSet vm.lineage_graph A ⟨A, none, none, none, none⟩) B
      ⟨B, some A, none, none, none⟩).length - 1, ?_⟩
    omega
  obtain ⟨m, hm⟩ := hlen
  have htrace : trace_lineage (alUpd (alSet (alSet vm.lineage_graph A
          ⟨A, none, none, none, none⟩) B ⟨B, some A, none, none, none⟩) A
        (fun ch => { ch with successor := some B })) B true = some [B, A] := by
    unfold trace_lineage
    rw [if_pos (by rw [hgetB2]; rfl), hm]
    simp [traceAux, hgetB2, hgetA2]
  refine ⟨⟨alSet vm.artifacts A ⟨fileA, nowA, metaA⟩,
      alSet vm.checksums A (compute_checksum cA),
      alSet vm.lineage_graph A ⟨A, none, none, none, none⟩⟩,
    ⟨alSet (alSet vm.artifacts A ⟨fileA, nowA, metaA⟩) B ⟨fileB, nowB, metaB⟩,
      alSet (alSet vm.checksums A (compute_checksum cA)) B (compute_checksum cB),
      alUpd (alSet (alSet vm.lineage_graph A ⟨A, none, none, none, none⟩) B
          ⟨B, some A, none, none, none⟩) A
        (fun ch => { ch with successor := some B })⟩,
    ⟨some (alSet vm.artifacts A ⟨fileA, nowA, metaA⟩,
      alSet vm.checksums A (compute_checksum cA)),
      some (alSet vm.lineage_graph A ⟨A, none, none, none, none⟩)⟩,
    ⟨some (alSet (alSet vm.artifacts A ⟨fileA, nowA, metaA⟩) B
        ⟨fileB, nowB, metaB⟩,
      alSet (alSet vm.checksums A (compute_checksum cA)) B (compute_checksum cB)),
      some (alUpd (alSet (alSet vm.lineage_graph A ⟨A, none, none, none, none⟩)
          B ⟨B, some A, none, none, none⟩) A
        (fun ch => { ch with successor := some B }))⟩,
    compute_checksum cA, compute_checksum cB, ?_, ?_, ?_, ?_, rfl, rfl⟩
  · unfold register_artifact
    rw [hfA]
  · unfold register_artifact
    rw [hfB]
    simp only [hcond]
    rfl
  · exact htrace
  · rw [hgetA2]
    rfl

/-- Witness for C1 at concrete identifiers, file contents and an
arbitrary concrete digest function. -/
theorem C1_witness :
    ∃ (vm1 vm2 : VaultManager) (d1 d2 : VaultDisk) (ck1 ck2 : String),
      register_artifact (fun _ => "d") (fun _ => some "x") "t0"
        ⟨[], [], []⟩ "AMOS://Demo/Widget/v1.0" "a.md" none []
        = some (vm1, d1, ck1) ∧
      register_artifact (fun _ => "d") (fun _ => some "x") "t1"
        vm1 "AMOS://Demo/Widget/v2.0" "b.md"
        (some "AMOS://Demo/Widget/v1.0") []
        = some (vm2, d2, ck2) ∧
      trace_lineage vm2.lineage_graph "AMOS://Demo/Widget/v2.0" true
        = some ["AMOS://Demo/Widget/v2.0", "AMOS://Demo/Widget/v1.0"] ∧
      (alGet vm2.lineage_graph "AMOS://Demo/Widget/v1.0").map
        LineageChain.successor = some (some "AMOS://Demo/Widget/v2.0") ∧
      d2.manifest = some (vm2.artifacts, vm2.checksums) ∧
      d2.lineage = some vm2.lineage_graph :=
  C1_register_trace (fun _ => "d") (fun _ => some "x") "t0" "t1"
    ⟨[], [], []⟩ "AMOS://Demo/Widget/v1.0" "AMOS://Demo/Widget/v2.0"
    "a.md" "b.md" [] [] "x" "x" (by decide) (by decide) rfl rfl

/-! ## Checksum validator (src/validators/checksum.py)

verify_checksum validates the format of the expected digest with the
Python regular expression match of ^[0-9a-fA-F]{64}$ (under re.match
semantics the anchor $ also matches just before one trailing newline at
the end of the string), then recomputes the file digest and compares
case-insensitively, returning (matches, error message) without raising.
calculate_file_checksum reads the file (FileNotFoundError when absent),
strips a leading frontmatter block for .md paths, and hashes with
SHA-256 (the uninterpreted hash parameter); text and bytes are
identified in the embedding, so the UnicodeDecodeError fallback branch
collapses. -/

/-- Hexadecimal character test, as the character class [0-9a-fA-F]. -/
def isHexChar (c : Char) : Bool :=
  c.isDigit || ('a' ≤ c && c ≤ 'f') || ('A' ≤ c && c ≤ 'F')

/-- Python re.match of ^[0-9a-fA-F]{64}$ : exactly 64 hex characters,
optionally followed by one trailing newline (the documented behaviour
of the $ anchor without MULTILINE). -/
def reMatchHex64 (s : List Char) : Bool :=
  (s.length == 64 && s.all isHexChar) ||
  (s.length == 65 && (s.take 64).all isHexChar && s.drop 64 == ['\n'])

/-- Leftmost occurrence of a pattern (Python str.find, as an Option). -/
def findSub (pat : List Char) : List Char → Option Nat
  | [] => if lPrefix pat [] then some 0 else none
  | c :: t =>
    if lPrefix pat (c :: t) then some 0 else (findSub pat t).map (· + 1)

/-- Python str.find(pat, start). -/
def findSubFrom (pat s : List Char) (start : Nat) : Option Nat :=
  (findSub pat (s.drop start)).map (· + start)

/-- Python str.endswith. -/
def lSuffix (p s : List Char) : Bool :=
  lPrefix p.reverse s.reverse

/-- Per-character lowercasing (Python str.lower on ASCII digests). -/
def lowerL (s : List Char) : List Char :=
  s.map Char.toLower

/-- Embedding of calculate_file_checksum: error on a missing file, and
for .md paths (with skip_frontmatter) hash only the content after the
line that closes a leading --- block, when both markers are found. -/
def calculate_file_checksum (hash : List Char → List Char)
    (files : List Char → Option (List Char))
    (file_path : List Char) (skip_frontmatter : Bool) :
    Except (List Char) (List Char) :=
  match files file_path with
  | none => .error ("File not found: ".toList ++ file_path)
  | some content0 =>
    let content :=
      if skip_frontmatter && lSuffix ".md".toList file_path then
        if lPrefix "---".toList content0 then
          match findSubFrom "\n---".toList content0 3 with
          | none => content0
          | some e =>
            match findSubFrom ['\n'] content0 (e + 4) with
            | none => content0
            | some cs => content0.drop (cs + 1)
        else content0
      else content0
    .ok (hash content)

/-- Embedding of verify_checksum. -/
def verify_checksum (hash : List Char → List Char)
    (files : List Char → Option (List Char))
    (file_path expected : List Char) (skip_frontmatter : Bool) :
    Bool × Option (List Char) :=
  if reMatchHex64 expected = false then
    (false, some ("Invalid checksum format: ".toList ++ expected ++
      " (must be 64 hex characters)".toList))
  else
    match calculate_file_checksum hash files file_path skip_frontmatter with
    | .error e => (false, some e)
    | .ok actual =>
      if lowerL actual ≠ lowerL expected then
        (false, some ("Checksum mismatch:\n  Expected: ".toList ++ expected ++
          "\n  Actual:   ".toList ++ actual ++
          "\n  File may have been modified".toList))
      else (true, none)

/-- A 65-character expected value: 64 hex digits plus a trailing
newline.  It is not 64 hexadecimal characters, yet it passes the
re.match format check. -/
def c8Expected : List Char := List.replicate 64 '0' ++ ['\n']

/-- C8 counterexample: with expected = 64 zeros plus a trailing newline
(not a 64-hex-character string), verify returns the checksum-mismatch
failure, not the format error the claim requires for every non-64-hex
expected string: Python re.match lets the $ anchor accept one trailing
newline. -/
theorem C8_counterexample :
    verify_checksum (fun _ => List.replicate 64 'a')
      (fun _ => some "x".toList) "f.txt".toList c8Expected true
      = (false, some ("Checksum mismatch:\n  Expected: ".toList ++ c8Expected ++
        "\n  Actual:   ".toList ++ List.replicate 64 'a' ++
        "\n  File may have been modified".toList)) ∧
    c8Expected.length ≠ 64 ∧ reMatchHex64 c8Expected = true := by
  refine ⟨by rfl, by decide, by rfl⟩

/-- C8 amended: verify returns the format failure (without raising)
exactly when the expected string fails the Python re.match of
^[0-9a-fA-F]{64}$ — i.e. is not 64 hex characters optionally followed
by a single trailing newline; and on a digest mismatch it returns
matches = false with a message carrying both the expected and the
actual digest, never raising. -/
theorem C8_verify_checksum_failures (hash : List Char → List Char)
    (files : List Char → Option (List Char))
    (file_path expected : List Char) (skip_frontmatter : Bool) :
    (reMatchHex64 expected = false →
      verify_checksum hash files file_path expected skip_frontmatter
        = (false, some ("Invalid checksum format: ".toList ++ expected ++
          " (must be 64 hex characters)".toList))) ∧
    (∀ actual : List Char, reMatchHex64 expected = true →
      calculate_file_checksum hash files file_path skip_frontmatter = .ok actual →
      lowerL actual ≠ lowerL expected →
      verify_checksum hash files file_path expected skip_frontmatter
        = (false, some ("Checksum mismatch:\n  Expected: ".toList ++ expected ++
          "\n  Actual:   ".toList ++ actual ++
          "\n  File may have been modified".toList))) := by
  constructor
  · intro h
    unfold verify_checksum
    rw [if_pos h]
  · intro actual hfmt hcalc hne
    unfold verify_checksum
    rw [if_neg (by rw [hfmt]; simp), hcalc]
    simp only [if_pos hne]

/-- Witness for C8 at a concrete malformed expected string and a
concrete mismatching digest. -/
theorem C8_witness :
    verify_checksum (fun _ => List.replicate 64 'a')
      (fun _ => some "x".toList) "f.txt".toList "zz".toList true
      = (false, some ("Invalid checksum format: zz (must be 64 hex characters)".toList)) ∧
    verify_checksum (fun _ => List.replicate 64 'a')
      (fun _ => some "x".toList) "f.txt".toList (List.replicate 64 '0') true
      = (false, some ("Checksum mismatch:\n  Expected: ".toList ++
        List.replicate 64 '0' ++ "\n  Actual:   ".toList ++
        List.replicate 64 'a' ++ "\n  File may have been modified".toList)) := by
  constructor
  · exact (C8_verify_checksum_failures (fun _ => List.replicate 64 'a')
      (fun _ => some "x".toList) "f.txt".toList "zz".toList true).1 (by rfl)
  · exact (C8_verify_checksum_failures (fun _ => List.replicate 64 'a')
      (fun _ => some "x".toList) "f.txt".toList (List.replicate 64 '0') true).2
      (List.replicate 64 'a') (by rfl) (by rfl) (by decide)

/-! ## Frontmatter checksum update (src/tools/sync-checksums.py)

update_frontmatter_checksum splits the file at the first \n---\n after
the opening ---\n, then either rewrites every line matching the Python
MULTILINE regular expression ^checksum_sha256:\s*.+$ (re.sub), or, when
no line starts with checksum_sha256:, strips trailing whitespace from
the block and appends a fresh checksum line.  The embedding models the
regex engine exactly: at a line start, after the literal key, the
greedy \s* may consume newlines before .+ grabs the rest of a later
line, so a key line with a blank value swallows the following line. -/

/-- Python whitespace (Py_UNICODE_ISSPACE): the character set matched
by \s in str regular expressions and stripped by str.rstrip().  It
covers ASCII whitespace, the C0 information separators, and the Unicode
space characters (NEL, NBSP, OGHAM SPACE MARK, the U+2000–U+200A
spaces, LINE/PARAGRAPH SEPARATOR, NARROW NBSP, MMSP, IDEOGRAPHIC
SPACE). -/
def isPySpace (c : Char) : Bool :=
  c = ' ' || c = '\t' || c = '\n' || c = '\r' ||
  c = '\x0b' || c = '\x0c' ||
  c = '\x1c' || c = '\x1d' || c = '\x1e' || c = '\x1f' ||
  c = '\x85' || c = '\xa0' || c = '\u1680' ||
  (0x2000 ≤ c.val && c.val ≤ 0x200a) ||
  c = '\u2028' || c = '\u2029' || c = '\u202f' || c = '\u205f' ||
  c = '\u3000'

/-- The literal key of the embedded checksum field. -/
def csKey : List Char := "checksum_sha256:".toList

/-- Element lookup (Python s[k] as an Option). -/
def nthC : List Char → Nat → Option Char
  | [], _ => none
  | c :: _, 0 => some c
  | _ :: t, n + 1 => nthC t n

/-- Whether the regex suffix .+$ can start at offset k of t: the
character there must exist and not be a newline. -/
def dotOk (t : List Char) (k : Nat) : Bool :=
  match nthC t k with
  | some c => decide (c ≠ '\n')
  | none => false

/-- Greedy backtracking of \s* : the largest k not exceeding the bound
at which .+$ succeeds. -/
def findK (t : List Char) : Nat → Option Nat
  | 0 => if dotOk t 0 then some 0 else none
  | k + 1 => if dotOk t (k + 1) then some (k + 1) else findK t k

/-- Length of the match of \s*.+$ at the start of t (None when the
pattern cannot match there).  \s* greedily consumes the maximal
whitespace prefix and backtracks until .+ finds a non-newline
character; .+ then runs to the end of that line. -/
def matchTail (t : List Char) : Option Nat :=
  match findK t (t.takeWhile isPySpace).length with
  | none => none
  | some k => some (k + ((t.drop k).takeWhile (fun c => c ≠ '\n')).length)

theorem length_takeWhileC (p : Char → Bool) (s : List Char) :
    (s.takeWhile p).length ≤ s.length := by
  induction s with
  | nil => simp
  | cons c t ih =>
    by_cases hc : p c = true <;> simp [List.takeWhile, hc] <;> omega

theorem lPrefix_le_length {p s : List Char} (h : lPrefix p s = true) :
    p.length ≤ s.length := by
  induction p generalizing s with
  | nil => simp
  | cons a as ih =>
    cases s with
    | nil => simp [lPrefix] at h
    | cons b bs =>
      simp only [lPrefix, Bool.and_eq_true] at h
      simpa using ih h.2

/-- Embedding of re.sub(r'^checksum_sha256:\s*.+$', repl, fm, MULTILINE):
scan the text line by line; at each line start try the pattern (literal
key, then the whitespace/dot tail); on a match emit the replacement and
resume after the match (just before the newline it stopped at), else
copy the line unchanged. -/
def scanSub (repl : List Char) (s : List Char) : List Char :=
  if h : (lPrefix csKey s && (matchTail (s.drop 16)).isSome) = true then
    let ext := (matchTail (s.drop 16)).getD 0
    let rem := s.drop (16 + ext)
    let ln := rem.takeWhile (fun c => c ≠ '\n')
    if rem.length ≤ ln.length then repl ++ ln
    else repl ++ ln ++ '\n' :: scanSub repl (rem.drop (ln.length + 1))
  else
    let ln := s.takeWhile (fun c => c ≠ '\n')
    if s.length ≤ ln.length then ln
    else ln ++ '\n' :: scanSub repl (s.drop (ln.length + 1))
termination_by s.length
decreasing_by
  · simp only [Bool.and_eq_true] at h
    have h16 : 16 ≤ s.length := lPrefix_le_length h.1
    simp only [List.length_drop]
    omega
  · rename_i h2
    have hl : (s.takeWhile (fun c => c ≠ '\n')).length ≤ s.length :=
      length_takeWhileC _ _
    simp only [List.length_drop]
    omega

/-- Scan of re.search(r'^checksum_sha256:', fm, MULTILINE) after at
least one character has been consumed: look for the key right after
each newline. -/
def hasKeyAfterNl : List Char → Bool
  | [] => false
  | c :: t =>
    if c = '\n' then lPrefix csKey t || hasKeyAfterNl t else hasKeyAfterNl t

/-- Embedding of re.search(r'^checksum_sha256:', fm, MULTILINE). -/
def hasKey (s : List Char) : Bool :=
  lPrefix csKey s || hasKeyAfterNl s

/-- Python str.rstrip(). -/
def rstrip (s : List Char) : List Char :=
  (s.reverse.dropWhile isPySpace).reverse

/-- Embedding of ChecksumSyncTool.update_frontmatter_checksum on the
file content (None models the False return for a file without a
well-formed frontmatter block; the file write itself is outside the
function's string manipulation). -/
def update_frontmatter_checksum (content new_checksum : List Char) :
    Option (List Char) :=
  if lPrefix "---\n".toList content = false then none
  else
    match findSub "\n---\n".toList (content.drop 4) with
    | none => none
    | some e =>
      let dropped := content.drop 4
      let frontmatter := dropped.take (e + 1)
      let rest := dropped.drop (e + 5)
      let updated :=
        if hasKey frontmatter then
          scanSub ("checksum_sha256: ".toList ++ new_checksum) frontmatter
        else
          rstrip frontmatter ++ "\nchecksum_sha256: ".toList ++
            new_checksum ++ ['\n']
      some ("---\n".toList ++ updated ++ "---\n".toList ++ rest)

/-- The counterexample content for C9: a frontmatter whose
checksum_sha256: line has an empty value, followed by an author line. -/
def c9Content : List Char :=
  "---\nchecksum_sha256:\nauthor: bob\n---\nBODY\n".toList

set_option maxRecDepth 4000 in
/-- C9 counterexample: updating the embedded checksum of a frontmatter
whose checksum_sha256: line carries no value destroys the following
author line — the greedy \s* of the replacement pattern crosses the
newline and .+$ consumes the next line, so the update changes more than
the single checksum line.  The conjuncts record that the author line
was a line of the original content and is absent from every line of the
result. -/
theorem C9_counterexample :
    update_frontmatter_checksum c9Content "NEW".toList
      = some ("---\nchecksum_sha256: NEW\n---\nBODY\n".toList) ∧
    "author: bob".toList ∈ splitCh '\n' c9Content ∧
    "author: bob".toList ∉
      splitCh '\n' ("---\nchecksum_sha256: NEW\n---\nBODY\n".toList) := by
  refine ⟨?_, by decide, by decide⟩
  unfold update_frontmatter_checksum c9Content
  unfold scanSub
  unfold scanSub
  rfl

/-! ### Frame lemmas for the frontmatter update

The amended C9 statement: when the frontmatter consists of lines
(joined by newlines, with a trailing newline) none of which is the ---
delimiter, the update touches only the checksum line.  joinL builds
such a block from its lines. -/

/-- Join lines into a block, a newline after every line. -/
def joinL (ls : List (List Char)) : List Char :=
  ls.foldr (fun l acc => l ++ '\n' :: acc) []

theorem joinL_cons (l : List Char) (ls : List (List Char)) :
    joinL (l :: ls) = l ++ '\n' :: joinL ls := rfl

theorem joinL_append (xs ys : List (List Char)) :
    joinL (xs ++ ys) = joinL xs ++ joinL ys := by
  induction xs with
  | nil => rfl
  | cons l t ih => simp [joinL_cons, ih]

theorem takeWhile_append_of_all {p : Char → Bool} {l : List Char}
    (hl : ∀ x ∈ l, p x = true) (z : List Char) :
    (l ++ z).takeWhile p = l ++ z.takeWhile p := by
  induction l with
  | nil => rfl
  | cons c t ih =>
    have hc : p c = true := hl c (by simp)
    simp only [List.cons_append, List.takeWhile_cons, hc, if_true]
    rw [ih (fun x hx => hl x (by simp [hx]))]

theorem takeWhile_cons_of_neg {p : Char → Bool} {c : Char}
    (hc : p c = false) (z : List Char) : (c :: z).takeWhile p = [] := by
  simp [List.takeWhile_cons, hc]

theorem drop_len_append (a b : List Char) (n : Nat) :
    (a ++ b).drop (a.length + n) = b.drop n := by
  induction a with
  | nil => simp
  | cons c t ih =>
    have : (c :: t).length + n = (t.length + n) + 1 := by
      simp [Nat.succ_add]
    rw [this]
    simpa using ih

theorem drop_len_append_zero (a b : List Char) : (a ++ b).drop a.length = b := by
  have := drop_len_append a b 0
  simpa using this

theorem drop_cons_append (l : List Char) (x : Char) (rest : List Char) :
    (l ++ x :: rest).drop (l.length + 1) = rest := by
  have := drop_len_append l (x :: rest) 1
  simpa using this

theorem take_len_append (a b : List Char) : (a ++ b).take a.length = a := by
  induction a with
  | nil => simp
  | cons c t ih => simpa using ih

theorem nthC_len_append (a : List Char) (c : Char) (u : List Char) :
    nthC (a ++ c :: u) a.length = some c := by
  induction a with
  | nil => rfl
  | cons d t ih => simpa [nthC] using ih

theorem lPrefix_through_nl {p : List Char} (hp : '\n' ∉ p) :
    ∀ {l rest : List Char}, lPrefix p (l ++ '\n' :: rest) = true →
      lPrefix p l = true := by
  induction p with
  | nil => intro l rest _; rfl
  | cons a q ih =>
    intro l rest h
    simp only [List.mem_cons, not_or] at hp
    cases l with
    | nil =>
      simp only [List.nil_append, lPrefix, Bool.and_eq_true,
        decide_eq_true_eq] at h
      exact absurd h.1.symm hp.1
    | cons b l2 =>
      simp only [List.cons_append, lPrefix, Bool.and_eq_true,
        decide_eq_true_eq] at h ⊢
      exact ⟨h.1, ih (by simp [hp.2]) h.2⟩

theorem dropWhile_head_neg {p : Char → Bool} :
    ∀ {s : List Char} {c : Char} {u : List Char},
      s.dropWhile p = c :: u → p c = false := by
  intro s
  induction s with
  | nil => intro c u h; simp at h
  | cons d t ih =>
    intro c u h
    by_cases hd : p d = true
    · rw [List.dropWhile_cons, if_pos hd] at h
      exact ih h
    · rw [List.dropWhile_cons, if_neg hd] at h
      cases h
      simpa using hd



theorem lPrefix_append_left {p q s : List Char}
    (h : lPrefix (p ++ q) s = true) : lPrefix p s = true := by
  induction p generalizing s with
  | nil => rfl
  | cons a as ih =>
    cases s with
    | nil => simp [lPrefix] at h
    | cons b bs =>
      simp only [List.cons_append, lPrefix, Bool.and_eq_true] at h ⊢
      exact ⟨h.1, ih h.2⟩

theorem scanSub_copy (repl l rest : List Char) (hnl : '\n' ∉ l)
    (hkey : lPrefix csKey l = false) :
    scanSub repl (l ++ '\n' :: rest) = l ++ '\n' :: scanSub repl rest := by
  conv_lhs => rw [scanSub]
  have hg : (lPrefix csKey (l ++ '\n' :: rest) &&
      (matchTail ((l ++ '\n' :: rest).drop 16)).isSome) = false := by
    have : lPrefix csKey (l ++ '\n' :: rest) = false := by
      by_contra hc
      have := @lPrefix_through_nl csKey (by decide) l rest (by
          cases h2 : lPrefix csKey (l ++ '\n' :: rest) with
          | false => exact absurd h2 hc
          | true => rfl)
      rw [this] at hkey
      exact absurd hkey (by simp)
    simp [this]
  rw [dif_neg (by simp [hg])]
  have htw : (l ++ '\n' :: rest).takeWhile (fun c => c ≠ '\n') = l := by
    rw [takeWhile_append_of_all (fun x hx => by
      simp only [ne_eq, decide_eq_true_eq]
      intro he; exact hnl (he ▸ hx))]
    simp
  rw [htw]
  have hlen : ¬ (l ++ '\n' :: rest).length ≤ l.length := by
    simp [List.length_append]
  rw [if_neg hlen, drop_cons_append]



theorem findK_hit {t : List Char} {k : Nat} (h : dotOk t k = true) :
    findK t k = some k := by
  cases k <;> simp [findK, h]

theorem matchTail_value {v : List Char} (rest : List Char)
    (hnl : '\n' ∉ v) (hc : ∃ c ∈ v, isPySpace c = false) :
    matchTail (v ++ '\n' :: rest) = some v.length := by
  have hd : v.dropWhile isPySpace ≠ [] := by
    intro hnil
    obtain ⟨c, hcv, hcs⟩ := hc
    have : isPySpace c = true := by
      have hall : ∀ x ∈ v.takeWhile isPySpace, isPySpace x = true :=
        fun x hx => List.mem_takeWhile_imp hx
      have : v = v.takeWhile isPySpace ++ v.dropWhile isPySpace :=
        (List.takeWhile_append_dropWhile isPySpace v).symm
      rw [hnil, List.append_nil] at this
      exact hall c (this ▸ hcv)
    rw [this] at hcs; cases hcs
  obtain ⟨c, u, hcu⟩ : ∃ c u, v.dropWhile isPySpace = c :: u := by
    cases h : v.dropWhile isPySpace with
    | nil => exact absurd h hd
    | cons c u => exact ⟨c, u, rfl⟩
  have hcns : isPySpace c = false := dropWhile_head_neg hcu
  have hvdec : v = v.takeWhile isPySpace ++ c :: u := by
    conv_lhs => rw [← List.takeWhile_append_dropWhile isPySpace v]
    rw [hcu]
  set w := v.takeWhile isPySpace with hw
  have hwall : ∀ x ∈ w, isPySpace x = true := fun x hx => List.mem_takeWhile_imp hx
  have ht : v ++ '\n' :: rest = w ++ c :: (u ++ '\n' :: rest) := by
    rw [hvdec]; simp
  rw [ht]
  have htw : (w ++ c :: (u ++ '\n' :: rest)).takeWhile isPySpace = w := by
    rw [takeWhile_append_of_all hwall, takeWhile_cons_of_neg hcns, List.append_nil]
  have hcnl : c ≠ '\n' := by
    intro he; rw [he] at hcns; cases hcns
  have hdot : dotOk (w ++ c :: (u ++ '\n' :: rest)) w.length = true := by
    simp [dotOk, nthC_len_append, hcnl]
  have hunl : ∀ x ∈ u, (fun d => d ≠ '\n' : Char → Bool) x = true := by
    intro x hx
    simp only [ne_eq, decide_eq_true_eq]
    intro he
    apply hnl
    rw [hvdec]
    refine List.mem_append_right _ (List.mem_cons_of_mem c ?_)
    rw [← he]
    exact hx
  have hdrop : (w ++ c :: (u ++ '\n' :: rest)).drop w.length
      = c :: (u ++ '\n' :: rest) := drop_len_append_zero w _
  have hlenv : v.length = w.length + 1 + u.length := by
    rw [hvdec]; simp [List.length_append]; omega
  have htw2 : (c :: (u ++ '\n' :: rest)).takeWhile (fun d => d ≠ '\n')
      = c :: u := by
    rw [List.takeWhile_cons, if_pos (by simp [hcnl]),
      takeWhile_append_of_all hunl, takeWhile_cons_of_neg (by simp),
      List.append_nil]
  rw [matchTail, htw, findK_hit hdot]
  show some (w.length +
      (((w ++ c :: (u ++ '\n' :: rest)).drop w.length).takeWhile
        (fun d => d ≠ '\n')).length) = some v.length
  rw [hdrop, htw2]
  simp only [List.length_cons, Option.some.injEq]
  omega



theorem scanSub_nil (repl : List Char) : scanSub repl [] = [] := by
  conv_lhs => rw [scanSub]
  rfl

theorem scanSub_match (repl v rest : List Char) (hnl : '\n' ∉ v)
    (hc : ∃ c ∈ v, isPySpace c = false) :
    scanSub repl (csKey ++ v ++ '\n' :: rest)
      = repl ++ '\n' :: scanSub repl rest := by
  have hs16 : (csKey ++ v ++ '\n' :: rest).drop 16 = v ++ '\n' :: rest := by
    have h1 : csKey ++ v ++ '\n' :: rest = csKey ++ (v ++ '\n' :: rest) := by
      simp
    rw [h1]
    have h2 : (16 : Nat) = csKey.length := by decide
    rw [h2, drop_len_append_zero]
  have hmt : matchTail ((csKey ++ v ++ '\n' :: rest).drop 16) = some v.length := by
    rw [hs16, matchTail_value rest hnl hc]
  have hpre : lPrefix csKey (csKey ++ v ++ '\n' :: rest) = true := by
    have h1 : csKey ++ v ++ '\n' :: rest = csKey ++ (v ++ '\n' :: rest) := by
      simp
    rw [h1, lPrefix_append_self]
  conv_lhs => rw [scanSub]
  rw [dif_pos (by rw [hpre, hmt]; rfl)]
  rw [hmt]
  have hrem : (csKey ++ v ++ '\n' :: rest).drop (16 + v.length)
      = '\n' :: rest := by
    have h2 : (16 : Nat) + v.length = (csKey ++ v).length := by
      simp [csKey]; omega
    rw [h2, drop_len_append_zero]
  simp only [Option.getD_some]
  rw [hrem, takeWhile_cons_of_neg (by simp)]
  rw [if_neg (by simp)]
  simp



/-- Lines without a newline and without the checksum key pass through
the substitution unchanged. -/
theorem scanSub_joinL_id (repl : List Char) :
    ∀ ls : List (List Char),
      (∀ l ∈ ls, '\n' ∉ l ∧ lPrefix csKey l = false) →
      scanSub repl (joinL ls) = joinL ls := by
  intro ls
  induction ls with
  | nil => intro _; exact scanSub_nil repl
  | cons l t ih =>
    intro h
    rw [joinL_cons, scanSub_copy repl l (joinL t) (h l (by simp)).1
      (h l (by simp)).2, ih (fun x hx => h x (by simp [hx]))]

/-- Substitution distributes over a prefix of key-free lines. -/
theorem scanSub_skip (repl : List Char) :
    ∀ (ls : List (List Char)) (t : List Char),
      (∀ l ∈ ls, '\n' ∉ l ∧ lPrefix csKey l = false) →
      scanSub repl (joinL ls ++ t) = joinL ls ++ scanSub repl t := by
  intro ls
  induction ls with
  | nil => intro t _; rfl
  | cons l ls2 ih =>
    intro t h
    rw [joinL_cons]
    have : (l ++ '\n' :: joinL ls2) ++ t = l ++ '\n' :: (joinL ls2 ++ t) := by
      simp
    rw [this, scanSub_copy repl l (joinL ls2 ++ t) (h l (by simp)).1
      (h l (by simp)).2, ih t (fun x hx => h x (by simp [hx]))]
    simp

theorem hasKeyAfterNl_cons (c : Char) (t : List Char) :
    hasKeyAfterNl (c :: t)
      = if c = '\n' then lPrefix csKey t || hasKeyAfterNl t
        else hasKeyAfterNl t := rfl

theorem hasKeyAfterNl_append (a : List Char) {t : List Char}
    (h : hasKeyAfterNl t = true) : hasKeyAfterNl (a ++ t) = true := by
  induction a with
  | nil => exact h
  | cons c a2 ih =>
    rw [List.cons_append, hasKeyAfterNl_cons]
    by_cases hc : c = '\n'
    · rw [if_pos hc, ih]; simp
    · rw [if_neg hc, ih]

theorem hasKeyAfterNl_key (z : List Char) :
    ∀ pre : List (List Char),
      hasKeyAfterNl ('\n' :: (joinL pre ++ csKey ++ z)) = true := by
  intro pre
  induction pre with
  | nil =>
    show hasKeyAfterNl ('\n' :: (csKey ++ z)) = true
    rw [hasKeyAfterNl_cons, if_pos rfl, lPrefix_append_self]
    simp
  | cons p t ih =>
    have hj : joinL (p :: t) ++ csKey ++ z
        = p ++ '\n' :: (joinL t ++ csKey ++ z) := by
      rw [joinL_cons]; simp
    rw [hj, hasKeyAfterNl_cons, if_pos rfl, hasKeyAfterNl_append p ih]
    simp

/-- A frontmatter containing a key line satisfies the re.search test. -/
theorem hasKey_joinL_key (pre : List (List Char)) (z : List Char) :
    hasKey (joinL pre ++ csKey ++ z) = true := by
  cases pre with
  | nil =>
    show (lPrefix csKey (csKey ++ z) || hasKeyAfterNl (csKey ++ z)) = true
    rw [lPrefix_append_self]
    simp
  | cons p t =>
    have hj : joinL (p :: t) ++ csKey ++ z
        = p ++ '\n' :: (joinL t ++ csKey ++ z) := by
      rw [joinL_cons]; simp
    rw [hasKey, hj, hasKeyAfterNl_append p (hasKeyAfterNl_key z t)]
    simp

theorem hasKeyAfterNl_append_no_nl {l : List Char} (hnl : '\n' ∉ l)
    (t : List Char) : hasKeyAfterNl (l ++ t) = hasKeyAfterNl t := by
  induction l with
  | nil => rfl
  | cons c l2 ih =>
    have hc : c ≠ '\n' := by
      intro he; exact hnl (by rw [he]; simp)
    rw [List.cons_append, hasKeyAfterNl_cons, if_neg hc]
    exact ih (fun he => hnl (by simp [he]))

/-- A frontmatter with no key line fails the re.search test. -/
theorem hasKey_joinL_false :
    ∀ ls : List (List Char),
      (∀ l ∈ ls, '\n' ∉ l ∧ lPrefix csKey l = false) →
      hasKey (joinL ls) = false := by
  intro ls
  induction ls with
  | nil => intro _; rfl
  | cons l t ih =>
    intro h
    rw [hasKey, joinL_cons]
    have h1 : lPrefix csKey (l ++ '\n' :: joinL t) = false := by
      cases hc : lPrefix csKey (l ++ '\n' :: joinL t) with
      | false => rfl
      | true =>
        have := @lPrefix_through_nl csKey (by decide) _ _ hc
        rw [(h l (by simp)).2] at this
        cases this
    rw [h1, hasKeyAfterNl_append_no_nl (h l (by simp)).1]
    have h2 : hasKeyAfterNl ('\n' :: joinL t) = hasKey (joinL t) := by
      rw [hasKeyAfterNl_cons, if_pos rfl, hasKey]
    rw [h2, ih (fun x hx => h x (by simp [hx]))]
    simp

/-- Stripping trailing whitespace from a block whose last character
before the final newline is not whitespace removes just that newline. -/
theorem rstrip_concat {c : Char} (a : List Char) (hc : isPySpace c = false) :
    rstrip (a ++ [c] ++ ['\n']) = a ++ [c] := by
  have h1 : (a ++ [c] ++ ['\n']).reverse = '\n' :: c :: a.reverse := by
    simp
  rw [rstrip, h1, List.dropWhile_cons, if_pos (by decide),
    List.dropWhile_cons, if_neg (by simp [hc])]
  simp



/-- A search for a pattern opening with a newline skips a newline-free
chunk, offsetting the hit. -/
theorem findSub_nl_pat_append {q : List Char} :
    ∀ (l t : List Char), '\n' ∉ l →
      findSub ('\n' :: q) (l ++ t)
        = (findSub ('\n' :: q) t).map (· + l.length) := by
  intro l
  induction l with
  | nil =>
    intro t _
    simp only [List.nil_append, List.length_nil]
    cases h : findSub ('\n' :: q) t <;> simp [h]
  | cons c l2 ih =>
    intro t hnl
    have hc : c ≠ '\n' := fun he => hnl (by simp [he])
    rw [List.cons_append, findSub]
    have hp : lPrefix ('\n' :: q) (c :: (l2 ++ t)) = false := by
      simp [lPrefix, Ne.symm hc]
    rw [if_neg (by simp [hp]), ih t (fun he => hnl (by simp [he]))]
    cases findSub ('\n' :: q) t <;> simp <;> omega

theorem lPrefix_dashes_false {l2 : List Char} (r : List Char)
    (h3 : lPrefix "---".toList l2 = false) :
    lPrefix "---\n".toList (l2 ++ '\n' :: r) = false := by
  cases hc : lPrefix "---\n".toList (l2 ++ '\n' :: r) with
  | false => rfl
  | true =>
    have h4 : lPrefix "---".toList (l2 ++ '\n' :: r) = true := by
      have : ("---\n".toList : List Char) = "---".toList ++ ['\n'] := by decide
      rw [this] at hc
      exact lPrefix_append_left hc
    have h5 := @lPrefix_through_nl "---".toList (by decide) _ _ h4
    rw [h3] at h5
    cases h5

/-- In a well-formed block the first occurrence of the close-delimiter
pattern sits exactly at the newline that ends the last frontmatter
line. -/
theorem findSub_joinL (body : List Char) :
    ∀ lines : List (List Char), lines ≠ [] →
      (∀ l ∈ lines, '\n' ∉ l ∧ lPrefix "---".toList l = false) →
      findSub "\n---\n".toList (joinL lines ++ "---\n".toList ++ body)
        = some ((joinL lines).length - 1) := by
  intro lines
  induction lines with
  | nil => intro h _; exact absurd rfl h
  | cons l t ih =>
    intro _ h
    have hpat : ("\n---\n".toList : List Char) = '\n' :: "---\n".toList := by
      decide
    cases t with
    | nil =>
      have hj : joinL [l] ++ "---\n".toList ++ body
          = l ++ '\n' :: ("---\n".toList ++ body) := by
        simp [joinL]
      rw [hj, hpat, findSub_nl_pat_append l _ (h l (by simp)).1]
      rw [findSub]
      rw [if_pos (by
        show lPrefix ('\n' :: "---\n".toList) ('\n' :: ("---\n".toList ++ body)) = true
        simp [lPrefix])]
      simp [joinL]
    | cons l2 t2 =>
      have hj : joinL (l :: l2 :: t2) ++ "---\n".toList ++ body
          = l ++ '\n' :: (joinL (l2 :: t2) ++ "---\n".toList ++ body) := by
        rw [joinL_cons]; simp
      rw [hj, hpat, findSub_nl_pat_append l _ (h l (by simp)).1]
      rw [findSub]
      have hinner : joinL (l2 :: t2) ++ "---\n".toList ++ body
          = l2 ++ '\n' :: (joinL t2 ++ "---\n".toList ++ body) := by
        rw [joinL_cons]; simp
      rw [if_neg (by
        show ¬ lPrefix ('\n' :: "---\n".toList)
          ('\n' :: (joinL (l2 :: t2) ++ "---\n".toList ++ body)) = true
        simp only [lPrefix, Bool.and_eq_true, decide_eq_true_eq]
        intro hcc
        have := hcc.2
        rw [hinner] at this
        rw [lPrefix_dashes_false _ (h l2 (by simp)).2] at this
        cases this)]
      rw [← hpat, ih (by simp) (fun x hx => h x (by simp [hx]))]
      have hlen : 1 ≤ (joinL (l2 :: t2)).length := by
        rw [joinL_cons]
        simp only [List.length_append, List.length_cons]
        omega
      have hlc : (joinL (l :: l2 :: t2)).length
          = l.length + 1 + (joinL (l2 :: t2)).length := by
        rw [joinL_cons]
        simp only [List.length_append, List.length_cons]
        omega
      simp only [hlc]
      show some ((joinL (l2 :: t2)).length - 1 + 1 + l.length)
        = some (l.length + 1 + (joinL (l2 :: t2)).length - 1)
      simp only [Option.some.injEq]
      omega



theorem joinL_length_pos {lines : List (List Char)} (h : lines ≠ []) :
    1 ≤ (joinL lines).length := by
  cases lines with
  | nil => exact absurd rfl h
  | cons l t =>
    rw [joinL_cons]
    simp only [List.length_append, List.length_cons]
    omega

/-- Evaluation of the update on a well-formed frontmatter block: the
block splits exactly at its delimiters, and the update rewrites only
the joined frontmatter lines. -/
theorem update_eval (lines : List (List Char)) (body newC : List Char)
    (hne : lines ≠ [])
    (h : ∀ l ∈ lines, '\n' ∉ l ∧ lPrefix "---".toList l = false) :
    update_frontmatter_checksum
      ("---\n".toList ++ joinL lines ++ "---\n".toList ++ body) newC
      = some ("---\n".toList ++
          (if hasKey (joinL lines) then
            scanSub ("checksum_sha256: ".toList ++ newC) (joinL lines)
          else rstrip (joinL lines) ++ "\nchecksum_sha256: ".toList ++
            newC ++ ['\n']) ++ "---\n".toList ++ body) := by
  have hL := joinL_length_pos hne
  have hassoc : "---\n".toList ++ joinL lines ++ "---\n".toList ++ body
      = "---\n".toList ++ (joinL lines ++ "---\n".toList ++ body) := by simp
  have h1 : lPrefix "---\n".toList
      ("---\n".toList ++ joinL lines ++ "---\n".toList ++ body) = true := by
    rw [hassoc]; exact lPrefix_append_self _ _
  have h2 : ("---\n".toList ++ joinL lines ++ "---\n".toList ++ body).drop 4
      = joinL lines ++ "---\n".toList ++ body := by
    rw [hassoc]
    have h4 : (4 : Nat) = ("---\n".toList : List Char).length := by decide
    rw [h4, drop_len_append_zero]
  have h3 : findSub "\n---\n".toList (joinL lines ++ "---\n".toList ++ body)
      = some ((joinL lines).length - 1) := findSub_joinL body lines hne h
  have h4 : (joinL lines ++ "---\n".toList ++ body).take
      ((joinL lines).length - 1 + 1) = joinL lines := by
    have he1 : (joinL lines).length - 1 + 1 = (joinL lines).length := by omega
    rw [he1, List.append_assoc, take_len_append]
  have h5 : (joinL lines ++ "---\n".toList ++ body).drop
      ((joinL lines).length - 1 + 5) = body := by
    have he5 : (joinL lines).length - 1 + 5 = (joinL lines).length + 4 := by
      omega
    rw [he5, List.append_assoc, drop_len_append]
    have h44 : (4 : Nat) = ("---\n".toList : List Char).length := by decide
    rw [h44, drop_len_append_zero]
  rw [update_frontmatter_checksum, if_neg (by rw [h1]; simp), h2, h3]
  simp only [h4, h5]



/-- C9 (amended): updating the embedded checksum touches only the
checksum line, for every well-formed frontmatter block whose lines are
newline-free, are not delimiter-like (no --- prefix), and do not start
with the key except the checksum line itself.  Replace case: when
exactly one line is checksum_sha256: followed by a value carrying a
non-whitespace character on the same line, that line alone becomes
checksum_sha256: <new>; every other frontmatter line and the entire
body after the closing delimiter are byte-identical.  Append case: when
no line starts with the key and the last line ends in a non-whitespace
character, a single new checksum line is appended at the end of the
block and everything else is byte-identical.  (The counterexample shows
the claim fails without the non-whitespace-value proviso: a blank value
lets the greedy whitespace of the substitution pattern swallow the
following line.) -/
theorem C9_update_frame :
    (∀ (pre post : List (List Char)) (v body newC : List Char),
      (∀ l ∈ pre, '\n' ∉ l ∧ lPrefix "---".toList l = false ∧
        lPrefix csKey l = false) →
      (∀ l ∈ post, '\n' ∉ l ∧ lPrefix "---".toList l = false ∧
        lPrefix csKey l = false) →
      '\n' ∉ v → (∃ c ∈ v, isPySpace c = false) →
      update_frontmatter_checksum
        ("---\n".toList ++ joinL (pre ++ (csKey ++ v) :: post) ++
          "---\n".toList ++ body) newC
        = some ("---\n".toList ++
            joinL (pre ++ ("checksum_sha256: ".toList ++ newC) :: post) ++
            "---\n".toList ++ body)) ∧
    (∀ (pre : List (List Char)) (y body newC : List Char) (c : Char),
      (∀ l ∈ pre ++ [y ++ [c]], '\n' ∉ l ∧ lPrefix "---".toList l = false ∧
        lPrefix csKey l = false) →
      isPySpace c = false →
      update_frontmatter_checksum
        ("---\n".toList ++ joinL (pre ++ [y ++ [c]]) ++ "---\n".toList ++ body)
        newC
        = some ("---\n".toList ++
            joinL (pre ++ [y ++ [c]] ++ ["checksum_sha256: ".toList ++ newC]) ++
            "---\n".toList ++ body)) := by
  constructor
  · intro pre post v body newC hpre hpost hnl hc
    have hkeyline : ('\n' : Char) ∉ csKey ++ v := by
      intro hm
      rcases List.mem_append.mp hm with hm1 | hm2
      · revert hm1; decide
      · exact hnl hm2
    have hkdash : lPrefix "---".toList (csKey ++ v) = false := rfl
    have hlines : ∀ l ∈ pre ++ (csKey ++ v) :: post,
        '\n' ∉ l ∧ lPrefix "---".toList l = false := by
      intro l hl
      rcases List.mem_append.mp hl with h1 | h2
      · exact ⟨(hpre l h1).1, (hpre l h1).2.1⟩
      · rcases List.mem_cons.mp h2 with rfl | h3
        · exact ⟨hkeyline, hkdash⟩
        · exact ⟨(hpost l h3).1, (hpost l h3).2.1⟩
    have hne : pre ++ (csKey ++ v) :: post ≠ [] := by simp
    rw [update_eval _ body newC hne hlines]
    have hjoin : joinL (pre ++ (csKey ++ v) :: post)
        = joinL pre ++ csKey ++ (v ++ '\n' :: joinL post) := by
      rw [joinL_append, joinL_cons]
      simp
    have hhk : hasKey (joinL (pre ++ (csKey ++ v) :: post)) = true := by
      rw [hjoin]; exact hasKey_joinL_key pre _
    rw [if_pos hhk]
    have hscan : scanSub ("checksum_sha256: ".toList ++ newC)
        (joinL (pre ++ (csKey ++ v) :: post))
        = joinL (pre ++ ("checksum_sha256: ".toList ++ newC) :: post) := by
      have hj2 : joinL (pre ++ (csKey ++ v) :: post)
          = joinL pre ++ (csKey ++ v ++ '\n' :: joinL post) := by
        rw [joinL_append, joinL_cons]
      rw [hj2, scanSub_skip _ pre _ (fun l hl => ⟨(hpre l hl).1, (hpre l hl).2.2⟩),
        scanSub_match _ v _ hnl hc,
        scanSub_joinL_id _ post (fun l hl => ⟨(hpost l hl).1, (hpost l hl).2.2⟩),
        joinL_append, joinL_cons]
    rw [hscan]
  · intro pre y body newC c hall hcs
    have hne : pre ++ [y ++ [c]] ≠ [] := by simp
    rw [update_eval _ body newC hne
      (fun l hl => ⟨(hall l hl).1, (hall l hl).2.1⟩)]
    have hhk : hasKey (joinL (pre ++ [y ++ [c]])) = false :=
      hasKey_joinL_false _ (fun l hl => ⟨(hall l hl).1, (hall l hl).2.2⟩)
    rw [if_neg (by rw [hhk]; simp)]
    have hrs : rstrip (joinL (pre ++ [y ++ [c]])) = joinL pre ++ y ++ [c] := by
      have hj : joinL (pre ++ [y ++ [c]]) = (joinL pre ++ y) ++ [c] ++ ['\n'] := by
        rw [joinL_append, joinL_cons]
        simp [joinL]
      rw [hj, rstrip_concat _ hcs]
    rw [hrs]
    have hnlck : ("\nchecksum_sha256: ".toList : List Char)
        = '\n' :: "checksum_sha256: ".toList := by decide
    rw [hnlck]
    have hj3 : joinL (pre ++ [y ++ [c]] ++ ["checksum_sha256: ".toList ++ newC])
        = joinL pre ++ y ++ [c] ++ '\n' :: ("checksum_sha256: ".toList ++
          newC ++ ['\n']) := by
      rw [joinL_append, joinL_append, joinL_cons, joinL_cons]
      simp [joinL]
    rw [hj3]
    simp

/-- Witness for C9 at concrete blocks: a replace on
title/checksum/author lines, and an append on a single title line. -/
theorem C9_witness :
    update_frontmatter_checksum
      ("---\n".toList ++ joinL ("title: x".toList ::
        (csKey ++ " OLD".toList) :: ["author: bob".toList]) ++
        "---\n".toList ++ "BODY\n".toList) "NEW".toList
      = some ("---\n".toList ++ joinL ("title: x".toList ::
          ("checksum_sha256: ".toList ++ "NEW".toList) ::
          ["author: bob".toList]) ++ "---\n".toList ++ "BODY\n".toList) ∧
    update_frontmatter_checksum
      ("---\n".toList ++ joinL ["title: ".toList ++ ['x']] ++
        "---\n".toList ++ "BODY\n".toList) "NEW".toList
      = some ("---\n".toList ++ joinL (["title: ".toList ++ ['x']] ++
          ["checksum_sha256: ".toList ++ "NEW".toList]) ++
          "---\n".toList ++ "BODY\n".toList) :=
  ⟨C9_update_frame.1 ["title: x".toList] ["author: bob".toList]
    " OLD".toList "BODY\n".toList "NEW".toList
    (by decide) (by decide) (by decide) (by decide),
   C9_update_frame.2 [] "title: ".toList "BODY\n".toList "NEW".toList 'x'
    (by decide) (by decide)⟩

end MirrorDNA
